import Mathlib

/-!
Order matching engine: embedding and verification.

A shallow embedding of `engine.hpp` / `engine.cpp`.

* `std::list<Order>` is a `List Order` in iteration order (head = front of
  the FIFO queue).
* `std::map<Price, std::list<Order>, Compare>` is an association list
  `List (Nat × List Order)` kept in the iteration order of the map.  The
  key invariant of `std::map` (keys strictly ordered by `Compare`) is the
  predicate `OrderMap.Sorted`; the functions below do not need it to run,
  the theorems state it where the behaviour of the map depends on it.
* `uint16_t` / `uint32_t` fields are natural numbers.  The only arithmetic
  that can wrap is the `uint32_t` counter of `process_orders` and the
  `uint32_t` accumulator of `get_volume_at_level`; both are reduced
  modulo `2 ^ 32`.  `order.quantity -= trade` and
  `listIt->quantity -= trade` subtract a value that is at most the
  minuend, so they are exact.
* Functions that mutate their arguments return the new values.
-/

namespace OrderMatching

/-! ## Data model (engine.hpp) -/

/-- Side of an order: `enum class Side : uint8_t { BUY, SELL }`. -/
inductive Side where
  | BUY
  | SELL
deriving DecidableEq

/-- An order: `struct Order { Id id; Price price; Quantity quantity; Side side; }`. -/
structure Order where
  id : Nat
  price : Nat
  quantity : Nat
  side : Side
deriving DecidableEq

/-- One side of the book: the `(price, queue)` pairs of a `std::map`, in
iteration order. -/
abbrev OrderMap := List (Nat × List Order)

/-- The book: `struct Orderbook { buyOrders; sellOrders; }`. -/
structure Orderbook where
  buyOrders : OrderMap
  sellOrders : OrderMap
deriving DecidableEq

/-- Comparator of `buyOrders`: `std::greater<Price>`. -/
def greater (a b : Nat) : Bool := decide (b < a)

/-- Comparator of `sellOrders`: `std::less<Price>` (the default). -/
def less (a b : Nat) : Bool := decide (a < b)

/-- Bound of `uint16_t` values. -/
def UINT16_BOUND : Nat := 65536

/-- Bound of `uint32_t` values. -/
def UINT32_BOUND : Nat := 4294967296

/-! ## engine.cpp -/

/-- Inner `while` loop of `process_orders` (engine.cpp 22-34): walks one
queue from its head while the incoming order has quantity left.  Returns the
incoming order, the counter and the queue as the loop leaves them. -/
def process_orders_queue (order : Order) (matchCount : Nat) :
    List Order → Order × Nat × List Order
  | [] => (order, matchCount, [])
  | r :: rest =>
    if order.quantity > 0 then
      let trade := min order.quantity r.quantity
      let order1 : Order := { order with quantity := order.quantity - trade }
      let r1 : Order := { r with quantity := r.quantity - trade }
      let count1 := (matchCount + 1) % UINT32_BOUND
      if r1.quantity = 0 then
        process_orders_queue order1 count1 rest
      else
        let res := process_orders_queue order1 count1 rest
        (res.1, res.2.1, r1 :: res.2.2)
    else
      (order, matchCount, r :: rest)

/-- Outer `while` loop of `process_orders` (engine.cpp 19-40): walks the
price levels in map order while the incoming order has quantity left and
the level's price satisfies `cond`. -/
def process_orders_levels (cond : Nat → Nat → Bool) (order : Order) (matchCount : Nat) :
    OrderMap → Order × Nat × OrderMap
  | [] => (order, matchCount, [])
  | (p, ordersAtPrice) :: rest =>
    if order.quantity > 0 ∧ cond p order.price = true then
      let res := process_orders_queue order matchCount ordersAtPrice
      if res.2.2.isEmpty then
        process_orders_levels cond res.1 res.2.1 rest
      else
        let res2 := process_orders_levels cond res.1 res.2.1 rest
        (res2.1, res2.2.1, (p, res.2.2) :: res2.2.2)
    else
      (order, matchCount, (p, ordersAtPrice) :: rest)

/-- The function `process_orders` (engine.cpp 15-42).  Returns the incoming
order as mutated, `matchCount`, and the map as mutated. -/
def process_orders (order : Order) (ordersMap : OrderMap) (cond : Nat → Nat → Bool) :
    Order × Nat × OrderMap :=
  process_orders_levels cond order 0 ordersMap

/-- Inner `for` loop of `modify_order_in_map` (engine.cpp 51-62).  The
boolean is true when the loop left the function through `return true`. -/
def modify_order_in_list (order_id new_quantity : Nat) : List Order → Bool × List Order
  | [] => (false, [])
  | o :: rest =>
    if o.id = order_id then
      if new_quantity = 0 then
        modify_order_in_list order_id new_quantity rest
      else
        (true, { o with quantity := new_quantity } :: rest)
    else
      let res := modify_order_in_list order_id new_quantity rest
      (res.1, o :: res.2)

/-- The function `modify_order_in_map` (engine.cpp 46-70).  Returns the
function's result and the map as mutated. -/
def modify_order_in_map (order_id new_quantity : Nat) : OrderMap → Bool × OrderMap
  | [] => (false, [])
  | (p, orderList) :: rest =>
    let res := modify_order_in_list order_id new_quantity orderList
    if res.1 then
      (true, (p, res.2) :: rest)
    else if res.2.isEmpty then
      modify_order_in_map order_id new_quantity rest
    else
      let res2 := modify_order_in_map order_id new_quantity rest
      (res2.1, (p, res.2) :: res2.2)

/-- The function `lookup_order_in_map` (engine.cpp 73-84): the first order
with the id, levels in map order, head to tail within a level. -/
def lookup_order_in_map (order_id : Nat) : OrderMap → Option Order
  | [] => none
  | (_, orderList) :: rest =>
    match orderList.find? (fun o => decide (o.id = order_id)) with
    | some o => some o
    | none => lookup_order_in_map order_id rest

/-- The expression `ordersMap[price].push_back(order)` on a `std::map`
ordered by `comp`: the level at `price` is created (empty) at its place when
no key is equivalent to `price`, and the order is appended to its queue. -/
def push_back_at (comp : Nat → Nat → Bool) (price : Nat) (order : Order) : OrderMap → OrderMap
  | [] => [(price, [order])]
  | (k, orderList) :: rest =>
    if comp k price then
      (k, orderList) :: push_back_at comp price order rest
    else if comp price k then
      (price, [order]) :: (k, orderList) :: rest
    else
      (k, orderList ++ [order]) :: rest

/-- The function `match_order` (engine.cpp 89-112).  Returns `matchCount`
and the book as mutated. -/
def match_order (orderbook : Orderbook) (incoming : Order) : Nat × Orderbook :=
  match incoming.side with
  | Side.BUY =>
    let res := process_orders incoming orderbook.sellOrders (fun p limit => decide (p ≤ limit))
    let order := res.1
    if order.quantity > 0 then
      (res.2.1, { buyOrders := push_back_at greater order.price order orderbook.buyOrders,
                  sellOrders := res.2.2 })
    else
      (res.2.1, { buyOrders := orderbook.buyOrders, sellOrders := res.2.2 })
  | Side.SELL =>
    let res := process_orders incoming orderbook.buyOrders (fun p limit => decide (p ≥ limit))
    let order := res.1
    if order.quantity > 0 then
      (res.2.1, { buyOrders := res.2.2,
                  sellOrders := push_back_at less order.price order orderbook.sellOrders })
    else
      (res.2.1, { buyOrders := res.2.2, sellOrders := orderbook.sellOrders })

/-- The function `modify_order_by_id` (engine.cpp 115-122). -/
def modify_order_by_id (orderbook : Orderbook) (order_id new_quantity : Nat) : Orderbook :=
  let resBuy := modify_order_in_map order_id new_quantity orderbook.buyOrders
  if resBuy.1 then
    { buyOrders := resBuy.2, sellOrders := orderbook.sellOrders }
  else
    let resSell := modify_order_in_map order_id new_quantity orderbook.sellOrders
    { buyOrders := resBuy.2, sellOrders := resSell.2 }

/-- The call `bookSide.find(price)` of a `std::map`: the queue stored under
the key, if any. -/
def map_find (price : Nat) : OrderMap → Option (List Order)
  | [] => none
  | (k, orderList) :: rest => if k = price then some orderList else map_find price rest

/-- The function `get_volume_at_level` (engine.cpp 125-147). -/
def get_volume_at_level (orderbook : Orderbook) (side : Side) (price : Nat) : Nat :=
  match side with
  | Side.BUY =>
    match map_find price orderbook.buyOrders with
    | some orderList => orderList.foldl (fun total o => (total + o.quantity) % UINT32_BOUND) 0
    | none => 0
  | Side.SELL =>
    match map_find price orderbook.sellOrders with
    | some orderList => orderList.foldl (fun total o => (total + o.quantity) % UINT32_BOUND) 0
    | none => 0

/-- The exception thrown by `lookup_order_by_id`:
`std::runtime_error("Order not found")`. -/
inductive EngineError where
  | orderNotFound
deriving DecidableEq

/-- The function `lookup_order_by_id` (engine.cpp 148-152). -/
def lookup_order_by_id (orderbook : Orderbook) (order_id : Nat) : Except EngineError Order :=
  match lookup_order_in_map order_id orderbook.buyOrders with
  | some o => Except.ok o
  | none =>
    match lookup_order_in_map order_id orderbook.sellOrders with
    | some o => Except.ok o
    | none => Except.error EngineError.orderNotFound

/-- The function `order_exists` (engine.cpp 154-157). -/
def order_exists (orderbook : Orderbook) (order_id : Nat) : Bool :=
  (lookup_order_in_map order_id orderbook.buyOrders).isSome ||
    (lookup_order_in_map order_id orderbook.sellOrders).isSome

/-- The function `create_orderbook` (engine.cpp 159-161): the empty book. -/
def create_orderbook : Orderbook := { buyOrders := [], sellOrders := [] }

/-! ## Specification vocabulary -/

/-- The invariant of a `std::map` ordered by `comp`: in iteration order the
keys are strictly ordered, hence pairwise distinct. -/
def OrderMap.Sorted (comp : Nat → Nat → Bool) (m : OrderMap) : Prop :=
  m.Pairwise (fun a b => comp a.1 b.1 = true)

instance (comp : Nat → Nat → Bool) (m : OrderMap) : Decidable (OrderMap.Sorted comp m) :=
  inferInstanceAs (Decidable (List.Pairwise (fun (a b : Nat × List Order) => comp a.1 b.1 = true) m))

/-- A book whose two ladders are `std::map`s with the comparators of
`struct Orderbook`: buy prices strictly descending, sell prices strictly
ascending. -/
def Orderbook.WellFormed (b : Orderbook) : Prop :=
  OrderMap.Sorted greater b.buyOrders ∧ OrderMap.Sorted less b.sellOrders

instance (b : Orderbook) : Decidable b.WellFormed :=
  inferInstanceAs (Decidable (OrderMap.Sorted greater b.buyOrders ∧ OrderMap.Sorted less b.sellOrders))

/-- Sum of the quantities of the orders of one queue. -/
def queueQuantity (l : List Order) : Nat := (l.map (fun o => o.quantity)).sum

/-- Sum of the quantities of all orders of a ladder. -/
def totalQuantity (m : OrderMap) : Nat := (m.map (fun lv => queueQuantity lv.2)).sum

/-- The crossing condition of the specification: a resting sell price
crosses a BUY when it is at most the limit, a resting buy price crosses a
SELL when it is at least the limit. -/
def crosses (side : Side) (p limit : Nat) : Bool :=
  match side with
  | Side.BUY => decide (p ≤ limit)
  | Side.SELL => decide (p ≥ limit)

/-- Sum of the quantities of all orders of a ladder that rest at a price
satisfying `cond` against `limit`. -/
def crossingQuantity (cond : Nat → Nat → Bool) (limit : Nat) (m : OrderMap) : Nat :=
  totalQuantity (m.filter (fun lv => cond lv.1 limit))

/-- The ladder an incoming order of the given side is matched against. -/
def oppositeSide (side : Side) (b : Orderbook) : OrderMap :=
  match side with
  | Side.BUY => b.sellOrders
  | Side.SELL => b.buyOrders

/-- The ladder on which an incoming order of the given side rests. -/
def ownSide (side : Side) (b : Orderbook) : OrderMap :=
  match side with
  | Side.BUY => b.buyOrders
  | Side.SELL => b.sellOrders

/-- A ladder without phantoms: no level has an empty queue and no resting
order has quantity 0. -/
def OrderMap.Clean (m : OrderMap) : Prop :=
  ∀ lv ∈ m, lv.2 ≠ [] ∧ ∀ o ∈ lv.2, o.quantity ≠ 0

instance (m : OrderMap) : Decidable (OrderMap.Clean m) :=
  inferInstanceAs (Decidable (∀ lv ∈ m, lv.2 ≠ [] ∧ ∀ o ∈ lv.2, o.quantity ≠ 0))

/-- A call of one of the two mutating entry points of the engine. -/
inductive Op where
  | matchOrder (incoming : Order)
  | modifyOrder (order_id new_quantity : Nat)

/-- The book after one call. -/
def applyOp (b : Orderbook) : Op → Orderbook
  | Op.matchOrder incoming => (match_order b incoming).2
  | Op.modifyOrder order_id new_quantity => modify_order_by_id b order_id new_quantity

/-- The book reached from the empty book (`create_orderbook`) by a finite
sequence of calls, the head of the list first. -/
def runOps (ops : List Op) : Orderbook := ops.foldl applyOp create_orderbook

/-- Test 5 of tests.cpp before its last call: two resting sells. -/
def bookTest5 : Orderbook :=
  { buyOrders := [],
    sellOrders := [(95, [{ id := 22, price := 95, quantity := 4, side := Side.SELL }]),
                   (100, [{ id := 23, price := 100, quantity := 6, side := Side.SELL }])] }

/-- The incoming order of the last call of Test 5. -/
def orderTest5 : Order := { id := 24, price := 100, quantity := 8, side := Side.BUY }

/-- Strictly better price for an incoming order of the given side: a lower
resting sell price for a BUY, a higher resting buy price for a SELL. -/
def strictlyBetter (side : Side) (p' p : Nat) : Bool :=
  match side with
  | Side.BUY => decide (p' < p)
  | Side.SELL => decide (p' > p)

/-- Test 8 of tests.cpp before its last call: two resting buys. -/
def bookTest8 : Orderbook :=
  { buyOrders := [(100, [{ id := 27, price := 100, quantity := 5, side := Side.BUY }]),
                  (95, [{ id := 28, price := 95, quantity := 5, side := Side.BUY }])],
    sellOrders := [] }

/-- The incoming order of the last call of Test 8. -/
def orderTest8 : Order := { id := 29, price := 90, quantity := 7, side := Side.SELL }

/-- The queue resting at price `p` in a ladder, empty when the ladder has no
level at `p`. -/
def queueAt (p : Nat) (m : OrderMap) : List Order := (map_find p m).getD []

/-- The order `y` is the order `x` after zero or more fills: same id, price
and side, quantity not larger. -/
def sameOrderReduced (x y : Order) : Prop :=
  y.id = x.id ∧ y.price = x.price ∧ y.side = x.side ∧ y.quantity ≤ x.quantity

/-- Test 10 of tests.cpp before its last call: two resting sells at one
price. -/
def bookTest10 : Orderbook :=
  { buyOrders := [],
    sellOrders := [(100, [{ id := 32, price := 100, quantity := 4, side := Side.SELL },
                          { id := 33, price := 100, quantity := 6, side := Side.SELL }])] }

/-- The incoming order of the last call of Test 10. -/
def orderTest10 : Order := { id := 34, price := 100, quantity := 8, side := Side.BUY }

/-- All orders of a ladder in priority order: levels in map order, each
queue head to tail. -/
def allOrders : OrderMap → List Order
  | [] => []
  | (_, orderList) :: rest => orderList ++ allOrders rest

/-- Number of positions at which the order of `after` has a quantity smaller
than the order of `before` at the same position. -/
def countReduced : List Order → List Order → Nat
  | x :: xs, y :: ys => (if y.quantity < x.quantity then 1 else 0) + countReduced xs ys
  | _, _ => 0

/-- Test 2 of tests.cpp before its third call: two resting sells at two
prices. -/
def bookTest2 : Orderbook :=
  { buyOrders := [],
    sellOrders := [(90, [{ id := 3, price := 90, quantity := 5, side := Side.SELL }]),
                   (95, [{ id := 4, price := 95, quantity := 5, side := Side.SELL }])] }

/-- The incoming order of the third call of Test 2. -/
def orderTest2 : Order := { id := 5, price := 100, quantity := 8, side := Side.BUY }

/-- Comparator of the ladder on which an incoming order of the given side
rests: `std::greater` for `buyOrders`, `std::less` for `sellOrders`. -/
def ownComparator (side : Side) : Nat → Nat → Bool :=
  match side with
  | Side.BUY => greater
  | Side.SELL => less

/-- Test 27 of tests.cpp before its fifth call: one sell resting at 100. -/
def bookTest27 : Orderbook :=
  { buyOrders := [],
    sellOrders := [(100, [{ id := 401, price := 100, quantity := 20, side := Side.SELL }])] }

/-- The incoming order of the fifth call of Test 27. -/
def orderTest27 : Order := { id := 402, price := 100, quantity := 15, side := Side.SELL }

/-- The order `x` rests in the ladder: it is in the queue of one of its
levels. -/
def OrderMap.Rests (m : OrderMap) (x : Order) : Prop := ∃ lv ∈ m, x ∈ lv.2

/-- The order `x` rests in the book: it rests in one of the two ladders. -/
def Orderbook.Rests (b : Orderbook) (x : Order) : Prop :=
  OrderMap.Rests b.buyOrders x ∨ OrderMap.Rests b.sellOrders x

/-- No order with the id rests in the ladder. -/
def OrderMap.Fresh (m : OrderMap) (order_id : Nat) : Prop :=
  ∀ lv ∈ m, ∀ x ∈ lv.2, x.id ≠ order_id

instance (m : OrderMap) (order_id : Nat) : Decidable (OrderMap.Fresh m order_id) :=
  inferInstanceAs (Decidable (∀ lv ∈ m, ∀ x ∈ lv.2, x.id ≠ order_id))

/-- Test 3 of tests.cpp before its third call: one buy resting at 100 with 6
left. -/
def bookTest3 : Orderbook :=
  { buyOrders := [(100, [{ id := 6, price := 100, quantity := 6, side := Side.BUY }])],
    sellOrders := [] }

/-- The incoming order of the third call of Test 3. -/
def orderTest3 : Order := { id := 8, price := 90, quantity := 7, side := Side.SELL }

/-- The ladder `m2` is the ladder `m1` with the quantity of the first order
with the id (levels in map order, head to tail within a level) replaced by
`new_quantity`: same levels, same queues, same positions. -/
def ModifiedInPlace (order_id new_quantity : Nat) (m1 m2 : OrderMap) : Prop :=
  ∃ pre p xs x ys post,
    m1 = pre ++ (p, xs ++ x :: ys) :: post ∧ x.id = order_id ∧
    OrderMap.Fresh pre order_id ∧ (∀ y ∈ xs, y.id ≠ order_id) ∧
    m2 = pre ++ (p, xs ++ { x with quantity := new_quantity } :: ys) :: post

/-- Test 16 of tests.cpp before its `modify_order_by_id` call: two sells
resting at 100. -/
def bookTest16 : Orderbook :=
  { buyOrders := [],
    sellOrders := [(100, [{ id := 54, price := 100, quantity := 5, side := Side.SELL },
                          { id := 55, price := 100, quantity := 5, side := Side.SELL }])] }

/-- A book whose buy ladder has a level with an empty queue at 100 in front
of the level at 99 where order 1 rests. -/
def bookPhantom : Orderbook :=
  { buyOrders := [(100, []),
                  (99, [{ id := 1, price := 99, quantity := 5, side := Side.BUY }])],
    sellOrders := [] }

/-- Test 18 of tests.cpp before its `modify_order_by_id` call: the buy
ladder with order 60 resting at 100. -/
def ladderTest18 : OrderMap :=
  [(100, [{ id := 60, price := 100, quantity := 10, side := Side.BUY }])]

/-- All order ids of the book are pairwise distinct, over both ladders. -/
def Orderbook.DistinctIds (b : Orderbook) : Prop :=
  ((allOrders b.buyOrders ++ allOrders b.sellOrders).map (fun o => o.id)).Nodup

instance (b : Orderbook) : Decidable b.DistinctIds :=
  inferInstanceAs
    (Decidable (List.Nodup
      ((allOrders b.buyOrders ++ allOrders b.sellOrders).map (fun (o : Order) => o.id))))

/-- The ladder `m2` is the ladder `m1` without one order with the id: the
other orders of its level keep their fields and their relative order, every
other level is as it was, and the level itself is gone exactly when that
order was the only one in its queue. -/
def CancelledIn (order_id : Nat) (m1 m2 : OrderMap) : Prop :=
  ∃ pre p xs x ys post,
    m1 = pre ++ (p, xs ++ x :: ys) :: post ∧ x.id = order_id ∧
    m2 = pre ++ (if xs ++ ys = [] then post else (p, xs ++ ys) :: post)

/-- Test 27 of tests.cpp before its first `modify_order_by_id` call: two
sells resting at 100. -/
def bookTest27a : Orderbook :=
  { buyOrders := [],
    sellOrders := [(100, [{ id := 400, price := 100, quantity := 30, side := Side.SELL },
                          { id := 401, price := 100, quantity := 20, side := Side.SELL }])] }

/-- Test 6 of tests.cpp before its `modify_order_by_id` call: one buy resting
at 100. -/
def bookTest6 : Orderbook :=
  { buyOrders := [(100, [{ id := 25, price := 100, quantity := 10, side := Side.BUY }])],
    sellOrders := [] }

/-- Two calls that rest two orders with the same id 1, one on each side (ids
are assigned by the caller and not checked). -/
def opsSameId : List Op :=
  [Op.matchOrder { id := 1, price := 105, quantity := 7, side := Side.SELL },
   Op.matchOrder { id := 1, price := 100, quantity := 5, side := Side.BUY }]

/-- The book reached by `opsSameId`: order 1 rests at 100 on the buy side and
order 1 rests at 105 on the sell side. -/
def bookSameId : Orderbook :=
  { buyOrders := [(100, [{ id := 1, price := 100, quantity := 5, side := Side.BUY }])],
    sellOrders := [(105, [{ id := 1, price := 105, quantity := 7, side := Side.SELL }])] }

/-- Test 9 of tests.cpp before its second call: one sell resting at 105. -/
def bookTest9 : Orderbook :=
  { buyOrders := [],
    sellOrders := [(105, [{ id := 30, price := 105, quantity := 5, side := Side.SELL }])] }

/-- The incoming order of the second call of Test 9. -/
def orderTest9 : Order := { id := 31, price := 100, quantity := 5, side := Side.BUY }

/-- Test 21 of tests.cpp after its two calls: two sells resting at 100. -/
def bookTest21 : Orderbook :=
  { buyOrders := [],
    sellOrders := [(100, [{ id := 101, price := 100, quantity := 5, side := Side.SELL },
                          { id := 102, price := 100, quantity := 7, side := Side.SELL }])] }

/-- An incoming order with quantity 0. -/
def orderZero : Order := { id := 9, price := 100, quantity := 0, side := Side.BUY }

/-- The book is not crossed: every buy price is strictly below every sell
price. -/
def Orderbook.Uncrossed (b : Orderbook) : Prop :=
  ∀ lvb ∈ b.buyOrders, ∀ lvs ∈ b.sellOrders, lvb.1 < lvs.1

/-- Test 28 of tests.cpp before its last call: buys at 100 and 99, sells at
101 and 102. -/
def bookTest28 : Orderbook :=
  { buyOrders := [(100, [{ id := 501, price := 100, quantity := 10, side := Side.BUY }]),
                  (99, [{ id := 502, price := 99, quantity := 5, side := Side.BUY }])],
    sellOrders := [(101, [{ id := 505, price := 101, quantity := 10, side := Side.SELL }]),
                   (102, [{ id := 504, price := 102, quantity := 20, side := Side.SELL }])] }

/-- The incoming order of the last call of Test 28. -/
def orderTest28 : Order := { id := 506, price := 102, quantity := 15, side := Side.BUY }

/-- A book whose buy ladder holds one level, at 100, with 65538 orders of
quantity 65535 each. -/
def bookWideLevel : Orderbook :=
  { buyOrders := [(100, List.replicate 65538
      { id := 1, price := 100, quantity := 65535, side := Side.BUY })],
    sellOrders := [] }

/-! ## The walk of `process_orders` -/

theorem process_orders_queue_zero (o : Order) (c : Nat) (l : List Order)
    (h : o.quantity = 0) : process_orders_queue o c l = (o, c, l) := by
  cases l with
  | nil => rfl
  | cons r rest => simp [process_orders_queue, h]

theorem process_orders_queue_order (o : Order) (c : Nat) (l : List Order) :
    (process_orders_queue o c l).1 = { o with quantity := o.quantity - queueQuantity l } := by
  induction l generalizing o c with
  | nil => simp [process_orders_queue, queueQuantity]
  | cons r rest ih =>
    simp only [process_orders_queue]
    by_cases hq : o.quantity > 0
    · simp only [hq, if_true]
      split
      · rw [ih]; simp [queueQuantity]; omega
      · simp only []
        rw [ih]; simp [queueQuantity]; omega
    · have h0 : o.quantity = 0 := by omega
      cases o
      simp_all

theorem process_orders_queue_quantity (o : Order) (c : Nat) (l : List Order) :
    queueQuantity (process_orders_queue o c l).2.2 = queueQuantity l - o.quantity := by
  induction l generalizing o c with
  | nil => simp [process_orders_queue, queueQuantity]
  | cons r rest ih =>
    simp only [process_orders_queue]
    by_cases hq : o.quantity > 0
    · simp only [hq, if_true]
      split
      · next h0 =>
        rw [ih]; simp [queueQuantity] at h0 ⊢; omega
      · next h0 =>
        have e : queueQuantity ({ r with quantity := r.quantity - min o.quantity r.quantity } ::
            (process_orders_queue { o with quantity := o.quantity - min o.quantity r.quantity }
              ((c + 1) % UINT32_BOUND) rest).2.2)
            = (r.quantity - min o.quantity r.quantity) +
              queueQuantity (process_orders_queue
                { o with quantity := o.quantity - min o.quantity r.quantity }
                ((c + 1) % UINT32_BOUND) rest).2.2 := by
          simp [queueQuantity]
        simp only [] at h0 ⊢
        rw [e, ih]; simp [queueQuantity] at h0 ⊢; omega
    · have h0 : o.quantity = 0 := by omega
      simp [hq, h0]

theorem process_orders_queue_nil (o : Order) (c : Nat) (l : List Order)
    (h : 0 < (process_orders_queue o c l).1.quantity) :
    (process_orders_queue o c l).2.2 = [] := by
  induction l generalizing o c with
  | nil => simp [process_orders_queue]
  | cons r rest ih =>
    simp only [process_orders_queue] at h ⊢
    by_cases hq : o.quantity > 0
    · simp only [hq, if_true] at h ⊢
      split
      · next h0 =>
        rw [if_pos h0] at h
        exact ih _ _ h
      · next h0 =>
        rw [if_neg h0] at h
        simp only [] at h
        rw [process_orders_queue_order] at h
        simp only [] at h h0
        omega
    · have h0 : o.quantity = 0 := by omega
      simp [hq, h0] at h

theorem crossingQuantity_le_total (cond : Nat → Nat → Bool) (lim : Nat) (m : OrderMap) :
    crossingQuantity cond lim m ≤ totalQuantity m := by
  induction m with
  | nil => simp [crossingQuantity, totalQuantity]
  | cons lv rest ih =>
    simp only [crossingQuantity, totalQuantity, List.filter_cons] at ih ⊢
    split <;> simp only [List.map_cons, List.sum_cons] <;> omega

theorem crossingQuantity_eq_zero (cond : Nat → Nat → Bool) (lim : Nat) (m : OrderMap)
    (h : ∀ lv ∈ m, cond lv.1 lim = false) : crossingQuantity cond lim m = 0 := by
  have e : m.filter (fun lv => cond lv.1 lim) = [] := by
    rw [List.filter_eq_nil_iff]
    intro lv hlv
    simp [h lv hlv]
  simp [crossingQuantity, e, totalQuantity]

theorem crossingQuantity_cons (cond : Nat → Nat → Bool) (lim p : Nat) (l : List Order)
    (rest : OrderMap) :
    crossingQuantity cond lim ((p, l) :: rest) =
      (if cond p lim = true then queueQuantity l else 0) + crossingQuantity cond lim rest := by
  simp only [crossingQuantity, totalQuantity, List.filter_cons]
  split <;> simp

theorem totalQuantity_cons (p : Nat) (l : List Order) (rest : OrderMap) :
    totalQuantity ((p, l) :: rest) = queueQuantity l + totalQuantity rest := by
  simp [totalQuantity]

theorem process_orders_levels_order (cond : Nat → Nat → Bool) (o : Order) (c : Nat)
    (m : OrderMap)
    (H : m.Pairwise (fun a b => cond a.1 o.price = false → cond b.1 o.price = false)) :
    (process_orders_levels cond o c m).1 =
      { o with quantity := o.quantity - crossingQuantity cond o.price m } := by
  induction m generalizing o c with
  | nil => simp [process_orders_levels, crossingQuantity, totalQuantity]
  | cons lv rest ih =>
    obtain ⟨p, l⟩ := lv
    rw [List.pairwise_cons] at H
    obtain ⟨H1, H2⟩ := H
    have hprice : (process_orders_queue o c l).1.price = o.price := by
      rw [process_orders_queue_order]
    have H2q : rest.Pairwise (fun a b => cond a.1 (process_orders_queue o c l).1.price = false →
        cond b.1 (process_orders_queue o c l).1.price = false) := by
      rw [hprice]; exact H2
    have key := ih (process_orders_queue o c l).1 (process_orders_queue o c l).2.1 H2q
    rw [hprice] at key
    simp only [process_orders_levels]
    rw [crossingQuantity_cons]
    by_cases hc : o.quantity > 0 ∧ cond p o.price = true
    · rw [if_pos hc]
      have e : (if (process_orders_queue o c l).2.2.isEmpty = true then
            process_orders_levels cond (process_orders_queue o c l).1
              (process_orders_queue o c l).2.1 rest
          else
            ((process_orders_levels cond (process_orders_queue o c l).1
                (process_orders_queue o c l).2.1 rest).1,
              (process_orders_levels cond (process_orders_queue o c l).1
                (process_orders_queue o c l).2.1 rest).2.1,
              (p, (process_orders_queue o c l).2.2) ::
                (process_orders_levels cond (process_orders_queue o c l).1
                  (process_orders_queue o c l).2.1 rest).2.2)).1
          = (process_orders_levels cond (process_orders_queue o c l).1
              (process_orders_queue o c l).2.1 rest).1 := by
        split <;> rfl
      simp only [] at e ⊢
      rw [e, key, process_orders_queue_order, if_pos hc.2]
      simp only [Order.mk.injEq, true_and, and_true]
      omega
    · rw [if_neg hc]
      by_cases hp : cond p o.price = true
      · have h0 : o.quantity = 0 := by
          by_contra hne
          exact hc ⟨by omega, hp⟩
        cases o
        simp_all
      · have hpf : cond p o.price = false := by simpa using hp
        have hz : crossingQuantity cond o.price rest = 0 :=
          crossingQuantity_eq_zero cond o.price rest (fun lv hlv => H1 lv hlv hpf)
        rw [if_neg hp, hz]
        cases o
        simp

theorem process_orders_levels_total (cond : Nat → Nat → Bool) (o : Order) (c : Nat)
    (m : OrderMap)
    (H : m.Pairwise (fun a b => cond a.1 o.price = false → cond b.1 o.price = false)) :
    totalQuantity (process_orders_levels cond o c m).2.2 +
      min o.quantity (crossingQuantity cond o.price m) = totalQuantity m := by
  induction m generalizing o c with
  | nil => simp [process_orders_levels, crossingQuantity, totalQuantity]
  | cons lv rest ih =>
    obtain ⟨p, l⟩ := lv
    rw [List.pairwise_cons] at H
    obtain ⟨H1, H2⟩ := H
    have hprice : (process_orders_queue o c l).1.price = o.price := by
      rw [process_orders_queue_order]
    have hquant : (process_orders_queue o c l).1.quantity = o.quantity - queueQuantity l := by
      rw [process_orders_queue_order]
    have H2q : rest.Pairwise (fun a b => cond a.1 (process_orders_queue o c l).1.price = false →
        cond b.1 (process_orders_queue o c l).1.price = false) := by
      rw [hprice]; exact H2
    have key := ih (process_orders_queue o c l).1 (process_orders_queue o c l).2.1 H2q
    rw [hprice, hquant] at key
    have hle := crossingQuantity_le_total cond o.price rest
    have hqq := process_orders_queue_quantity o c l
    simp only [process_orders_levels]
    rw [crossingQuantity_cons, totalQuantity_cons]
    by_cases hc : o.quantity > 0 ∧ cond p o.price = true
    · rw [if_pos hc, if_pos hc.2]
      by_cases he : (process_orders_queue o c l).2.2.isEmpty = true
      · rw [if_pos he]
        have hnil : (process_orders_queue o c l).2.2 = [] := by simpa using he
        rw [hnil] at hqq
        have hq0 : queueQuantity [] = 0 := rfl
        rw [hq0] at hqq
        omega
      · rw [if_neg he]
        simp only []
        rw [totalQuantity_cons]
        omega
    · rw [if_neg hc]
      simp only []
      rw [totalQuantity_cons]
      by_cases hp : cond p o.price = true
      · have h0 : o.quantity = 0 := by
          by_contra hne
          exact hc ⟨by omega, hp⟩
        rw [h0]; simp
      · have hpf : cond p o.price = false := by simpa using hp
        have hz : crossingQuantity cond o.price rest = 0 :=
          crossingQuantity_eq_zero cond o.price rest (fun lv hlv => H1 lv hlv hpf)
        rw [if_neg hp, hz]; simp

theorem totalQuantity_push_back_at (comp : Nat → Nat → Bool) (price : Nat) (o : Order)
    (m : OrderMap) :
    totalQuantity (push_back_at comp price o m) = totalQuantity m + o.quantity := by
  induction m with
  | nil => simp [push_back_at, totalQuantity, queueQuantity]
  | cons lv rest ih =>
    obtain ⟨k, l⟩ := lv
    simp only [push_back_at]
    split
    · rw [totalQuantity_cons, ih, totalQuantity_cons]; omega
    · split
      · rw [totalQuantity_cons, totalQuantity_cons]; simp [queueQuantity]; omega
      · rw [totalQuantity_cons, totalQuantity_cons]; simp [queueQuantity]; omega

theorem sorted_less_crossing (m : OrderMap) (lim : Nat) (h : OrderMap.Sorted less m) :
    m.Pairwise (fun a b => crosses Side.BUY a.1 lim = false → crosses Side.BUY b.1 lim = false) := by
  refine List.Pairwise.imp ?_ h
  intro a b hab
  simp only [less, crosses, decide_eq_true_eq, decide_eq_false_iff_not] at hab ⊢
  omega

theorem sorted_greater_crossing (m : OrderMap) (lim : Nat) (h : OrderMap.Sorted greater m) :
    m.Pairwise (fun a b => crosses Side.SELL a.1 lim = false → crosses Side.SELL b.1 lim = false) := by
  refine List.Pairwise.imp ?_ h
  intro a b hab
  simp only [greater, crosses, decide_eq_true_eq, decide_eq_false_iff_not] at hab ⊢
  omega

theorem crosses_buy : crosses Side.BUY = (fun p limit => decide (p ≤ limit)) := rfl

theorem crosses_sell : crosses Side.SELL = (fun p limit => decide (p ≥ limit)) := rfl

/-- In a well-formed book the opposite ladder is ordered so that once a
level fails the crossing condition every later level fails it too. -/
theorem opposite_crossing_monotone (b : Orderbook) (side : Side) (lim : Nat)
    (hwf : b.WellFormed) :
    (oppositeSide side b).Pairwise
      (fun x y => crosses side x.1 lim = false → crosses side y.1 lim = false) := by
  cases side with
  | BUY => exact sorted_less_crossing _ lim hwf.2
  | SELL => exact sorted_greater_crossing _ lim hwf.1

/-- What `match_order` does, in terms of the walk of `process_orders` over
the opposite ladder. -/
theorem match_order_eq (b : Orderbook) (o : Order) :
    (match_order b o).1 = (process_orders o (oppositeSide o.side b) (crosses o.side)).2.1 ∧
    oppositeSide o.side (match_order b o).2 =
      (process_orders o (oppositeSide o.side b) (crosses o.side)).2.2 ∧
    ownSide o.side (match_order b o).2 =
      (if (process_orders o (oppositeSide o.side b) (crosses o.side)).1.quantity > 0 then
        push_back_at (ownComparator o.side)
          (process_orders o (oppositeSide o.side b) (crosses o.side)).1.price
          (process_orders o (oppositeSide o.side b) (crosses o.side)).1 (ownSide o.side b)
      else ownSide o.side b) := by
  unfold match_order
  cases hs : o.side with
  | BUY =>
    simp only [oppositeSide, ownSide, ownComparator, crosses_buy]
    split <;> simp
  | SELL =>
    simp only [oppositeSide, ownSide, ownComparator, crosses_sell]
    split <;> simp

/-! ## Shape of the walk -/

theorem process_orders_levels_zero (cond : Nat → Nat → Bool) (o : Order) (c : Nat)
    (m : OrderMap) (h : o.quantity = 0) : process_orders_levels cond o c m = (o, c, m) := by
  cases m with
  | nil => rfl
  | cons lv rest =>
    obtain ⟨p, l⟩ := lv
    simp [process_orders_levels, h]

theorem process_orders_queue_conserve (o : Order) (c : Nat) (l : List Order) :
    queueQuantity (process_orders_queue o c l).2.2 + o.quantity =
      queueQuantity l + (process_orders_queue o c l).1.quantity := by
  rw [process_orders_queue_quantity, process_orders_queue_order]
  simp only []
  omega

theorem process_orders_queue_length (o : Order) (c : Nat) (l : List Order) :
    (process_orders_queue o c l).2.2.length ≤ l.length := by
  induction l generalizing o c with
  | nil => simp [process_orders_queue]
  | cons r rest ih =>
    simp only [process_orders_queue]
    split
    · split
      · exact Nat.le_succ_of_le (ih _ _)
      · simp only [List.length_cons]
        exact Nat.succ_le_succ (ih _ _)
    · exact Nat.le_refl _

/-- A queue that the inner loop leaves non-empty has exhausted the incoming
order. -/
theorem process_orders_queue_exhausted (o : Order) (c : Nat) (l : List Order)
    (h : (process_orders_queue o c l).2.2 ≠ []) :
    (process_orders_queue o c l).1.quantity = 0 := by
  by_contra hne
  exact h (process_orders_queue_nil o c l (by omega))

theorem process_orders_queue_append (o : Order) (c : Nat) (xs ys : List Order) :
    process_orders_queue o c (xs ++ ys) =
      if (process_orders_queue o c xs).2.2 = [] then
        process_orders_queue (process_orders_queue o c xs).1 (process_orders_queue o c xs).2.1 ys
      else
        ((process_orders_queue o c xs).1, (process_orders_queue o c xs).2.1,
          (process_orders_queue o c xs).2.2 ++ ys) := by
  induction xs generalizing o c with
  | nil => simp [process_orders_queue]
  | cons r rest ih =>
    rw [List.cons_append]
    simp only [process_orders_queue]
    by_cases hq : o.quantity > 0
    · simp only [hq, if_true]
      by_cases h0 : r.quantity - min o.quantity r.quantity = 0
      · simp only [h0, if_true]
        exact ih _ _
      · simp only [h0, if_false]
        have hz : o.quantity - min o.quantity r.quantity = 0 := by omega
        rw [process_orders_queue_zero
            { o with quantity := o.quantity - min o.quantity r.quantity } _ (rest ++ ys) hz,
          process_orders_queue_zero
            { o with quantity := o.quantity - min o.quantity r.quantity } _ rest hz]
        simp
    · have hz : o.quantity = 0 := by omega
      simp [hq, process_orders_queue_zero _ _ _ hz]

theorem process_orders_levels_append (cond : Nat → Nat → Bool) (o : Order) (c : Nat)
    (pre post : OrderMap) :
    process_orders_levels cond o c (pre ++ post) =
      if (process_orders_levels cond o c pre).2.2 = [] then
        process_orders_levels cond (process_orders_levels cond o c pre).1
          (process_orders_levels cond o c pre).2.1 post
      else
        ((process_orders_levels cond o c pre).1, (process_orders_levels cond o c pre).2.1,
          (process_orders_levels cond o c pre).2.2 ++ post) := by
  induction pre generalizing o c with
  | nil => simp [process_orders_levels]
  | cons lv rest ih =>
    obtain ⟨p, l⟩ := lv
    rw [List.cons_append]
    simp only [process_orders_levels]
    by_cases hc : o.quantity > 0 ∧ cond p o.price = true
    · simp only [hc, and_self, if_true]
      by_cases he : (process_orders_queue o c l).2.2.isEmpty = true
      · simp only [he, if_true]
        exact ih _ _
      · simp only [he, Bool.false_eq_true, if_false]
        have hne : (process_orders_queue o c l).2.2 ≠ [] := by simpa using he
        have hz := process_orders_queue_exhausted o c l hne
        rw [process_orders_levels_zero _ _ _ (rest ++ post) hz,
          process_orders_levels_zero _ _ _ rest hz]
        simp
    · rw [if_neg hc, if_neg hc]
      simp

theorem process_orders_levels_conserve (cond : Nat → Nat → Bool) (o : Order) (c : Nat)
    (m : OrderMap) :
    totalQuantity (process_orders_levels cond o c m).2.2 + o.quantity =
      totalQuantity m + (process_orders_levels cond o c m).1.quantity := by
  induction m generalizing o c with
  | nil => simp [process_orders_levels]
  | cons lv rest ih =>
    obtain ⟨p, l⟩ := lv
    have key := ih (process_orders_queue o c l).1 (process_orders_queue o c l).2.1
    have hq := process_orders_queue_conserve o c l
    simp only [process_orders_levels]
    rw [totalQuantity_cons]
    by_cases hc : o.quantity > 0 ∧ cond p o.price = true
    · rw [if_pos hc]
      by_cases he : (process_orders_queue o c l).2.2.isEmpty = true
      · rw [if_pos he]
        have hnil : (process_orders_queue o c l).2.2 = [] := by simpa using he
        rw [hnil] at hq
        have hq0 : queueQuantity [] = 0 := rfl
        rw [hq0] at hq
        omega
      · rw [if_neg he]
        simp only []
        rw [totalQuantity_cons]
        omega
    · rw [if_neg hc]
      simp only []
      rw [totalQuantity_cons]

theorem process_orders_levels_keys (cond : Nat → Nat → Bool) (o : Order) (c : Nat)
    (m : OrderMap) :
    ∀ lv ∈ (process_orders_levels cond o c m).2.2, lv.1 ∈ m.map Prod.fst := by
  induction m generalizing o c with
  | nil => simp [process_orders_levels]
  | cons lv0 rest ih =>
    obtain ⟨p, l⟩ := lv0
    simp only [process_orders_levels]
    by_cases hc : o.quantity > 0 ∧ cond p o.price = true
    · rw [if_pos hc]
      by_cases he : (process_orders_queue o c l).2.2.isEmpty = true
      · rw [if_pos he]
        intro lv hlv
        exact List.mem_cons_of_mem _ (ih _ _ lv hlv)
      · rw [if_neg he]
        intro lv hlv
        simp only [List.mem_cons] at hlv
        rcases hlv with rfl | hlv
        · simp
        · exact List.mem_cons_of_mem _ (ih _ _ lv hlv)
    · rw [if_neg hc]
      intro lv hlv
      exact List.mem_map_of_mem Prod.fst hlv

theorem map_find_eq_none (p : Nat) (m : OrderMap) (h : p ∉ m.map Prod.fst) :
    map_find p m = none := by
  induction m with
  | nil => rfl
  | cons lv rest ih =>
    obtain ⟨k, l⟩ := lv
    simp only [List.map_cons, List.mem_cons, not_or] at h
    simp only [map_find]
    rw [if_neg (fun e => h.1 e.symm)]
    exact ih h.2

theorem map_find_append_of_not_mem (p : Nat) (pre post : OrderMap)
    (h : p ∉ pre.map Prod.fst) : map_find p (pre ++ post) = map_find p post := by
  induction pre with
  | nil => rfl
  | cons lv rest ih =>
    obtain ⟨k, l⟩ := lv
    simp only [List.map_cons, List.mem_cons, not_or] at h
    simp only [List.cons_append, map_find]
    rw [if_neg (fun e => h.1 e.symm)]
    exact ih h.2

theorem totalQuantity_append (m1 m2 : OrderMap) :
    totalQuantity (m1 ++ m2) = totalQuantity m1 + totalQuantity m2 := by
  simp [totalQuantity]

theorem process_orders_levels_quantity_le (cond : Nat → Nat → Bool) (o : Order) (c : Nat)
    (m : OrderMap) : (process_orders_levels cond o c m).1.quantity ≤ o.quantity := by
  induction m generalizing o c with
  | nil => simp [process_orders_levels]
  | cons lv rest ih =>
    obtain ⟨p, l⟩ := lv
    have key := ih (process_orders_queue o c l).1 (process_orders_queue o c l).2.1
    have hq : (process_orders_queue o c l).1.quantity ≤ o.quantity := by
      rw [process_orders_queue_order]; simp only []; omega
    simp only [process_orders_levels]
    split
    · split
      · omega
      · simp only []; omega
    · exact Nat.le_refl _

theorem process_orders_levels_total_le (cond : Nat → Nat → Bool) (o : Order) (c : Nat)
    (m : OrderMap) : totalQuantity (process_orders_levels cond o c m).2.2 ≤ totalQuantity m := by
  have h1 := process_orders_levels_conserve cond o c m
  have h2 := process_orders_levels_quantity_le cond o c m
  omega

/-- A level of a key-sorted ladder splits it into the levels ordered before
its key and the levels ordered after. -/
theorem sorted_split (comp : Nat → Nat → Bool) (m : OrderMap) (hs : OrderMap.Sorted comp m)
    (p : Nat) (l : List Order) (hmem : (p, l) ∈ m) :
    ∃ pre post, m = pre ++ (p, l) :: post ∧ (∀ lv ∈ pre, comp lv.1 p = true) ∧
      (∀ lv ∈ post, comp p lv.1 = true) := by
  obtain ⟨pre, post, rfl⟩ := List.append_of_mem hmem
  refine ⟨pre, post, rfl, ?_, ?_⟩
  · intro lv hlv
    unfold OrderMap.Sorted at hs
    rw [List.pairwise_append] at hs
    exact hs.2.2 lv hlv (p, l) (List.mem_cons_self _ _)
  · intro lv hlv
    unfold OrderMap.Sorted at hs
    rw [List.pairwise_append, List.pairwise_cons] at hs
    exact hs.2.1.1 lv hlv

theorem not_mem_keys_of_forall (comp : Nat → Nat → Bool) (hirr : ∀ a, comp a a = false)
    (m : OrderMap) (p : Nat)
    (h : (∀ lv ∈ m, comp lv.1 p = true) ∨ (∀ lv ∈ m, comp p lv.1 = true)) :
    p ∉ m.map Prod.fst := by
  intro hp
  rw [List.mem_map] at hp
  obtain ⟨lv, hlv, rfl⟩ := hp
  have := hirr lv.1
  rcases h with h | h <;> simp [h lv hlv] at this

/-- What the walk does to one level `(p, l)` of a ladder: either the level is
left as it was, or every level before it has been consumed and erased, the
incoming order still had quantity, and the level's queue is what the inner
loop made of `l`. -/
theorem process_orders_levels_split (cond : Nat → Nat → Bool) (o : Order) (c : Nat)
    (pre post : OrderMap) (p : Nat) (l : List Order)
    (hpre : p ∉ pre.map Prod.fst) (hpost : p ∉ post.map Prod.fst) :
    map_find p (process_orders_levels cond o c (pre ++ (p, l) :: post)).2.2 = some l ∨
    ((process_orders_levels cond o c pre).2.2 = [] ∧
      0 < (process_orders_levels cond o c pre).1.quantity ∧
      process_orders_levels cond o c (pre ++ (p, l) :: post) =
        process_orders_levels cond (process_orders_levels cond o c pre).1
          (process_orders_levels cond o c pre).2.1 ((p, l) :: post) ∧
      (map_find p (process_orders_levels cond o c (pre ++ (p, l) :: post)).2.2).getD [] =
        (process_orders_queue (process_orders_levels cond o c pre).1
          (process_orders_levels cond o c pre).2.1 l).2.2 ∧
      totalQuantity (process_orders_levels cond o c (pre ++ (p, l) :: post)).2.2 ≤
        queueQuantity (process_orders_queue (process_orders_levels cond o c pre).1
          (process_orders_levels cond o c pre).2.1 l).2.2 + totalQuantity post) := by
  rw [process_orders_levels_append]
  by_cases hnil : (process_orders_levels cond o c pre).2.2 = []
  · rw [if_pos hnil]
    generalize (process_orders_levels cond o c pre).1 = o1
    generalize (process_orders_levels cond o c pre).2.1 = c1
    simp only [process_orders_levels]
    by_cases hc : o1.quantity > 0 ∧ cond p o1.price = true
    · right
      have hle := process_orders_levels_total_le cond (process_orders_queue o1 c1 l).1
        (process_orders_queue o1 c1 l).2.1 post
      rw [if_pos hc]
      by_cases he : (process_orders_queue o1 c1 l).2.2.isEmpty = true
      · rw [if_pos he]
        refine ⟨hnil, hc.1, trivial, ?_, by omega⟩
        have hnone : map_find p (process_orders_levels cond (process_orders_queue o1 c1 l).1
            (process_orders_queue o1 c1 l).2.1 post).2.2 = none := by
          apply map_find_eq_none
          intro hp
          rw [List.mem_map] at hp
          obtain ⟨lv, hlv, rfl⟩ := hp
          exact hpost (process_orders_levels_keys _ _ _ _ lv hlv)
        rw [hnone]
        have : (process_orders_queue o1 c1 l).2.2 = [] := by simpa using he
        rw [this]; rfl
      · rw [if_neg he]
        refine ⟨hnil, hc.1, trivial, by simp [map_find], ?_⟩
        simp only []
        rw [totalQuantity_cons]
        omega
    · left
      rw [if_neg hc]
      simp [map_find]
  · left
    rw [if_neg hnil]
    simp only []
    rw [map_find_append_of_not_mem]
    · simp [map_find]
    · intro hp
      rw [List.mem_map] at hp
      obtain ⟨lv, hlv, rfl⟩ := hp
      exact hpre (process_orders_levels_keys _ _ _ _ lv hlv)

theorem process_orders_levels_priority (comp cond : Nat → Nat → Bool) (o : Order) (c : Nat)
    (m : OrderMap) (hirr : ∀ a, comp a a = false)
    (hasym : ∀ a b, comp a b = true → comp b a = false)
    (hs : OrderMap.Sorted comp m) (p : Nat) (l : List Order) (hmem : (p, l) ∈ m)
    (hchg : map_find p (process_orders_levels cond o c m).2.2 ≠ some l) :
    (∀ lv ∈ (process_orders_levels cond o c m).2.2, comp lv.1 p = false) ∧
    totalQuantity (m.filter (fun lv => comp lv.1 p)) +
      totalQuantity (process_orders_levels cond o c m).2.2 ≤ totalQuantity m := by
  obtain ⟨pre, post, rfl, hpre, hpost⟩ := sorted_split comp m hs p l hmem
  have hp1 := not_mem_keys_of_forall comp hirr pre p (Or.inl hpre)
  have hp2 := not_mem_keys_of_forall comp hirr post p (Or.inr hpost)
  rcases process_orders_levels_split cond o c pre post p l hp1 hp2 with h | ⟨-, -, heq, -, -⟩
  · exact absurd h hchg
  · rw [heq]
    constructor
    · intro lv hlv
      have hk := process_orders_levels_keys _ _ _ _ lv hlv
      simp only [List.map_cons, List.mem_cons, List.mem_map] at hk
      rcases hk with hk | ⟨lv2, hlv2, hk⟩
      · rw [hk]; exact hirr p
      · rw [← hk]; exact hasym _ _ (hpost lv2 hlv2)
    · have hf : (pre ++ (p, l) :: post).filter (fun lv => comp lv.1 p) = pre := by
        rw [List.filter_append, List.filter_cons]
        have h1 : pre.filter (fun lv => comp lv.1 p) = pre := by
          rw [List.filter_eq_self]; exact hpre
        have h2 : post.filter (fun lv => comp lv.1 p) = [] := by
          rw [List.filter_eq_nil_iff]
          intro lv hlv
          simp [hasym _ _ (hpost lv hlv)]
        rw [h1, h2]
        simp [hirr p]
      rw [hf, totalQuantity_append]
      have := process_orders_levels_total_le cond (process_orders_levels cond o c pre).1
        (process_orders_levels cond o c pre).2.1 ((p, l) :: post)
      omega

theorem strictlyBetter_irrefl (side : Side) (a : Nat) : strictlyBetter side a a = false := by
  cases side <;> simp [strictlyBetter]

theorem strictlyBetter_asymm (side : Side) (a b : Nat) (h : strictlyBetter side a b = true) :
    strictlyBetter side b a = false := by
  cases side <;> simp [strictlyBetter] at h ⊢ <;> omega

/-- In a well-formed book the ladder an order is matched against is sorted
best price first. -/
theorem opposite_sorted (b : Orderbook) (side : Side) (hwf : b.WellFormed) :
    OrderMap.Sorted (strictlyBetter side) (oppositeSide side b) := by
  cases side with
  | BUY => exact hwf.2
  | SELL => exact hwf.1

/-! ## FIFO within a level -/

theorem queueQuantity_append (xs ys : List Order) :
    queueQuantity (xs ++ ys) = queueQuantity xs + queueQuantity ys := by
  simp [queueQuantity]

theorem sameOrderReduced_refl (x : Order) : sameOrderReduced x x :=
  ⟨rfl, rfl, rfl, Nat.le_refl _⟩

/-- The queue left by the inner loop is the tail of the old queue, each
survivor being the old order with a quantity that is not larger. -/
theorem process_orders_queue_residue_split (o : Order) (c : Nat) (l : List Order) :
    ∃ gone kept, l = gone ++ kept ∧
      List.Forall₂ sameOrderReduced kept (process_orders_queue o c l).2.2 := by
  induction l generalizing o c with
  | nil => exact ⟨[], [], rfl, by simp [process_orders_queue]⟩
  | cons r rest ih =>
    simp only [process_orders_queue]
    by_cases hq : o.quantity > 0
    · rw [if_pos hq]
      by_cases h0 : r.quantity - min o.quantity r.quantity = 0
      · simp only [h0, if_true]
        obtain ⟨gone, kept, hl, hf⟩ := ih
          { o with quantity := o.quantity - min o.quantity r.quantity } ((c + 1) % UINT32_BOUND)
        exact ⟨r :: gone, kept, by rw [hl]; rfl, hf⟩
      · simp only [h0, if_false]
        have hz : o.quantity - min o.quantity r.quantity = 0 := by omega
        rw [process_orders_queue_zero
          { o with quantity := o.quantity - min o.quantity r.quantity } _ rest hz]
        refine ⟨[], r :: rest, rfl, List.Forall₂.cons ?_ ?_⟩
        · exact ⟨rfl, rfl, rfl, Nat.sub_le _ _⟩
        · exact List.forall₂_same.mpr (fun x _ => sameOrderReduced_refl x)
    · rw [if_neg hq]
      exact ⟨[], r :: rest, rfl, List.forall₂_same.mpr (fun x _ => sameOrderReduced_refl x)⟩

theorem process_orders_queue_residue (o : Order) (c : Nat) (l : List Order) :
    List.Forall₂ sameOrderReduced
      (l.drop (l.length - (process_orders_queue o c l).2.2.length))
      (process_orders_queue o c l).2.2 := by
  obtain ⟨gone, kept, hl, hf⟩ := process_orders_queue_residue_split o c l
  have hlen := hf.length_eq
  have hd : l.drop (l.length - (process_orders_queue o c l).2.2.length) = kept := by
    rw [← hlen]
    conv_lhs => rw [hl]
    apply List.drop_left'
    rw [List.length_append]
    omega
  rw [hd]
  exact hf

theorem process_orders_queue_fifo (o : Order) (c : Nat) (xs : List Order) (x : Order)
    (post : List Order)
    (hchg : ¬ (x :: post) <:+ (process_orders_queue o c (xs ++ x :: post)).2.2) :
    (process_orders_queue o c (xs ++ x :: post)).2.2.length ≤ post.length + 1 ∧
    queueQuantity xs + queueQuantity (process_orders_queue o c (xs ++ x :: post)).2.2 ≤
      queueQuantity (xs ++ x :: post) := by
  rw [process_orders_queue_append] at hchg ⊢
  by_cases hnil : (process_orders_queue o c xs).2.2 = []
  · rw [if_pos hnil]
    constructor
    · exact process_orders_queue_length _ _ (x :: post)
    · rw [queueQuantity_append, process_orders_queue_quantity]
      omega
  · rw [if_neg hnil] at hchg
    exact absurd (List.suffix_append _ _) hchg

theorem process_orders_levels_fifo (comp cond : Nat → Nat → Bool) (o : Order) (c : Nat)
    (m : OrderMap) (hirr : ∀ a, comp a a = false) (hs : OrderMap.Sorted comp m)
    (p : Nat) (xs : List Order) (x : Order) (post : List Order)
    (hmem : (p, xs ++ x :: post) ∈ m)
    (hchg : ¬ (x :: post) <:+ queueAt p (process_orders_levels cond o c m).2.2) :
    (queueAt p (process_orders_levels cond o c m).2.2).length ≤ post.length + 1 ∧
    List.Forall₂ sameOrderReduced
      ((xs ++ x :: post).drop ((xs ++ x :: post).length -
        (queueAt p (process_orders_levels cond o c m).2.2).length))
      (queueAt p (process_orders_levels cond o c m).2.2) ∧
    queueQuantity xs + totalQuantity (process_orders_levels cond o c m).2.2 ≤
      totalQuantity m := by
  obtain ⟨pre, postL, rfl, hpre, hpost⟩ := sorted_split comp m hs p _ hmem
  have hp1 := not_mem_keys_of_forall comp hirr pre p (Or.inl hpre)
  have hp2 := not_mem_keys_of_forall comp hirr postL p (Or.inr hpost)
  unfold queueAt at hchg ⊢
  rcases process_orders_levels_split cond o c pre postL p _ hp1 hp2 with
    h | ⟨-, -, -, hq, htot⟩
  · rw [h] at hchg
    exact absurd (List.suffix_append _ _) hchg
  · rw [hq] at hchg ⊢
    obtain ⟨hlen, hqty⟩ := process_orders_queue_fifo _ _ xs x post hchg
    refine ⟨hlen, process_orders_queue_residue _ _ _, ?_⟩
    rw [totalQuantity_append, totalQuantity_cons]
    omega

/-! ## The fill counter -/

theorem countReduced_self (l : List Order) : countReduced l l = 0 := by
  induction l with
  | nil => rfl
  | cons x xs ih => simp [countReduced, ih]

theorem countReduced_append (k1 a1 k2 a2 : List Order) (h : k1.length = a1.length) :
    countReduced (k1 ++ k2) (a1 ++ a2) = countReduced k1 a1 + countReduced k2 a2 := by
  induction k1 generalizing a1 with
  | nil =>
    cases a1 with
    | nil => simp [countReduced]
    | cons y ys => simp at h
  | cons x xs ih =>
    cases a1 with
    | nil => simp at h
    | cons y ys =>
      simp only [List.length_cons, Nat.add_right_cancel_iff] at h
      rw [List.cons_append, List.cons_append]
      simp only [countReduced]
      rw [ih ys h]
      omega

theorem forall₂_append_same (k a rest : List Order)
    (h : List.Forall₂ sameOrderReduced k a) :
    List.Forall₂ sameOrderReduced (k ++ rest) (a ++ rest) := by
  induction h with
  | nil => exact List.forall₂_same.mpr (fun x _ => sameOrderReduced_refl x)
  | cons hxy _ ih => exact List.Forall₂.cons hxy ih

/-- The inner loop: the orders it erased are a prefix of the queue, the
survivors are the rest in order, and the counter grows (modulo `2 ^ 32`) by
the number of erased orders plus the number of reduced survivors.  When the
resting quantities are positive every counted order costs the incoming
order at least one unit. -/
theorem process_orders_queue_count (o : Order) (c : Nat) (l : List Order)
    (hc : c < UINT32_BOUND) :
    ∃ gone kept, l = gone ++ kept ∧
      List.Forall₂ sameOrderReduced kept (process_orders_queue o c l).2.2 ∧
      (process_orders_queue o c l).2.1 =
        (c + (gone.length + countReduced kept (process_orders_queue o c l).2.2)) %
          UINT32_BOUND ∧
      ((∀ r ∈ l, 0 < r.quantity) →
        gone.length + countReduced kept (process_orders_queue o c l).2.2 +
          (process_orders_queue o c l).1.quantity ≤ o.quantity) := by
  induction l generalizing o c with
  | nil =>
    refine ⟨[], [], rfl, by simp [process_orders_queue], ?_, ?_⟩
    · simp only [process_orders_queue, countReduced, List.length_nil, Nat.add_zero]
      exact (Nat.mod_eq_of_lt hc).symm
    · intro _
      simp [process_orders_queue, countReduced]
  | cons r rest ih =>
    simp only [process_orders_queue]
    by_cases hq : o.quantity > 0
    · rw [if_pos hq]
      by_cases h0 : r.quantity - min o.quantity r.quantity = 0
      · simp only [h0, if_true]
        have hc1 : (c + 1) % UINT32_BOUND < UINT32_BOUND :=
          Nat.mod_lt _ (by unfold UINT32_BOUND; omega)
        obtain ⟨gone, kept, hl, hf, hcnt, hpos⟩ := ih
          { o with quantity := o.quantity - min o.quantity r.quantity }
          ((c + 1) % UINT32_BOUND) hc1
        refine ⟨r :: gone, kept, by rw [hl]; rfl, hf, ?_, ?_⟩
        · rw [hcnt]
          simp only [List.length_cons]
          unfold UINT32_BOUND
          omega
        · intro hall
          have hr := hall r (List.mem_cons_self _ _)
          have := hpos (fun y hy => hall y (List.mem_cons_of_mem _ hy))
          simp only [List.length_cons] at this ⊢
          omega
      · simp only [h0, if_false]
        have hz : o.quantity - min o.quantity r.quantity = 0 := by omega
        rw [process_orders_queue_zero
          { o with quantity := o.quantity - min o.quantity r.quantity } _ rest hz]
        have hcr : countReduced (r :: rest)
            ({ r with quantity := r.quantity - min o.quantity r.quantity } :: rest) = 1 := by
          simp only [countReduced, countReduced_self]
          rw [if_pos (by omega)]
        refine ⟨[], r :: rest, rfl, List.Forall₂.cons ?_ ?_, ?_, ?_⟩
        · exact ⟨rfl, rfl, rfl, Nat.sub_le _ _⟩
        · exact List.forall₂_same.mpr (fun x _ => sameOrderReduced_refl x)
        · simp only []
          rw [hcr]
          simp
        · intro _
          simp only []
          rw [hcr]
          simp only [List.length_nil]
          omega
    · rw [if_neg hq]
      refine ⟨[], r :: rest, rfl,
        List.forall₂_same.mpr (fun x _ => sameOrderReduced_refl x), ?_, ?_⟩
      · simp only [countReduced_self, List.length_nil, Nat.add_zero]
        exact (Nat.mod_eq_of_lt hc).symm
      · intro _
        simp only [countReduced_self, List.length_nil]
        omega

theorem process_orders_levels_count (cond : Nat → Nat → Bool) (o : Order) (c : Nat)
    (m : OrderMap) (hc : c < UINT32_BOUND) :
    ∃ gone kept, allOrders m = gone ++ kept ∧
      List.Forall₂ sameOrderReduced kept (allOrders (process_orders_levels cond o c m).2.2) ∧
      (process_orders_levels cond o c m).2.1 =
        (c + (gone.length +
          countReduced kept (allOrders (process_orders_levels cond o c m).2.2))) %
          UINT32_BOUND ∧
      ((∀ lv ∈ m, ∀ r ∈ lv.2, 0 < r.quantity) →
        gone.length + countReduced kept (allOrders (process_orders_levels cond o c m).2.2) +
          (process_orders_levels cond o c m).1.quantity ≤ o.quantity) := by
  induction m generalizing o c with
  | nil =>
    refine ⟨[], [], rfl, by simp [process_orders_levels, allOrders], ?_, ?_⟩
    · simp only [process_orders_levels, allOrders, countReduced, List.length_nil, Nat.add_zero]
      exact (Nat.mod_eq_of_lt hc).symm
    · intro _
      simp [process_orders_levels, allOrders, countReduced]
  | cons lv rest ih =>
    obtain ⟨p, l⟩ := lv
    simp only [process_orders_levels]
    by_cases hen : o.quantity > 0 ∧ cond p o.price = true
    · rw [if_pos hen]
      obtain ⟨gq, kq, hl, hfq, hcq, hpq⟩ := process_orders_queue_count o c l hc
      by_cases he : (process_orders_queue o c l).2.2.isEmpty = true
      · rw [if_pos he]
        have hnil : (process_orders_queue o c l).2.2 = [] := by simpa using he
        rw [hnil] at hfq hcq hpq
        have hkq : kq = [] := by cases hfq; rfl
        subst hkq
        have hc1 : (process_orders_queue o c l).2.1 < UINT32_BOUND := by
          rw [hcq]; exact Nat.mod_lt _ (by unfold UINT32_BOUND; omega)
        obtain ⟨g2, k2, hl2, hf2, hc2, hp2⟩ :=
          ih (process_orders_queue o c l).1 (process_orders_queue o c l).2.1 hc1
        refine ⟨gq ++ g2, k2, ?_, hf2, ?_, ?_⟩
        · simp only [allOrders]
          rw [hl, hl2]
          simp
        · rw [hc2, hcq]
          simp only [countReduced, List.length_append, Nat.add_zero]
          unfold UINT32_BOUND
          omega
        · intro hall
          have h1 := hpq (fun r hr => hall (p, l) (List.mem_cons_self _ _) r hr)
          have h2 := hp2 (fun lv hlv r hr => hall lv (List.mem_cons_of_mem _ hlv) r hr)
          simp only [countReduced, List.length_append, Nat.add_zero] at h1 ⊢
          omega
      · rw [if_neg he]
        have hne : (process_orders_queue o c l).2.2 ≠ [] := by simpa using he
        have hz := process_orders_queue_exhausted o c l hne
        rw [process_orders_levels_zero _ _ _ rest hz]
        simp only [allOrders]
        have hcr : countReduced (kq ++ allOrders rest)
            ((process_orders_queue o c l).2.2 ++ allOrders rest) =
            countReduced kq (process_orders_queue o c l).2.2 := by
          rw [countReduced_append _ _ _ _ hfq.length_eq, countReduced_self]
          rfl
        refine ⟨gq, kq ++ allOrders rest, ?_, forall₂_append_same _ _ _ hfq, ?_, ?_⟩
        · rw [hl]; simp
        · rw [hcr]; exact hcq
        · intro hall
          rw [hcr]
          exact hpq (fun r hr => hall (p, l) (List.mem_cons_self _ _) r hr)
    · rw [if_neg hen]
      refine ⟨[], allOrders ((p, l) :: rest), rfl,
        List.forall₂_same.mpr (fun x _ => sameOrderReduced_refl x), ?_, ?_⟩
      · simp only [countReduced_self, List.length_nil, Nat.add_zero]
        exact (Nat.mod_eq_of_lt hc).symm
      · intro _
        simp only [countReduced_self, List.length_nil]
        omega

theorem residue_drop (before after gone kept : List Order) (h : before = gone ++ kept)
    (hf : List.Forall₂ sameOrderReduced kept after) :
    before.length - after.length = gone.length ∧
      before.drop (before.length - after.length) = kept := by
  have hlen := hf.length_eq
  have h1 : before.length - after.length = gone.length := by
    rw [h, List.length_append]; omega
  refine ⟨h1, ?_⟩
  rw [h1, h]
  exact List.drop_left _ _

/-! ## Resting the remainder -/

theorem process_orders_levels_fields (cond : Nat → Nat → Bool) (o : Order) (c : Nat)
    (m : OrderMap) :
    (process_orders_levels cond o c m).1 =
      { o with quantity := (process_orders_levels cond o c m).1.quantity } := by
  induction m generalizing o c with
  | nil => simp [process_orders_levels]
  | cons lv rest ih =>
    obtain ⟨p, l⟩ := lv
    have key := ih (process_orders_queue o c l).1 (process_orders_queue o c l).2.1
    have hq := process_orders_queue_order o c l
    simp only [process_orders_levels]
    split
    · split
      · rw [key, hq]
      · simp only []
        rw [key, hq]
    · simp

theorem ownComparator_irrefl (side : Side) (a : Nat) : ownComparator side a a = false := by
  cases side <;> simp [ownComparator, greater, less]

theorem ownComparator_trans (side : Side) (a b c : Nat) (h1 : ownComparator side a b = true)
    (h2 : ownComparator side b c = true) : ownComparator side a c = true := by
  cases side <;> simp [ownComparator, greater, less] at h1 h2 ⊢ <;> omega

theorem ownComparator_trichotomy (side : Side) (a b : Nat)
    (h1 : ownComparator side a b = false) (h2 : ownComparator side b a = false) : a = b := by
  cases side <;> simp [ownComparator, greater, less] at h1 h2 ⊢ <;> omega

theorem own_sorted (b : Orderbook) (side : Side) (hwf : b.WellFormed) :
    OrderMap.Sorted (ownComparator side) (ownSide side b) := by
  cases side with
  | BUY => exact hwf.1
  | SELL => exact hwf.2

theorem push_back_at_keys (comp : Nat → Nat → Bool) (price : Nat) (o : Order) (m : OrderMap) :
    ∀ lv ∈ push_back_at comp price o m, lv.1 = price ∨ lv.1 ∈ m.map Prod.fst := by
  induction m with
  | nil =>
    intro lv hlv
    simp only [push_back_at, List.mem_singleton] at hlv
    subst hlv
    exact Or.inl rfl
  | cons lv0 rest ih =>
    obtain ⟨k, l⟩ := lv0
    simp only [push_back_at]
    split
    · intro lv hlv
      simp only [List.mem_cons] at hlv
      rcases hlv with rfl | hlv
      · right; simp
      · rcases ih lv hlv with h | h
        · exact Or.inl h
        · right; exact List.mem_cons_of_mem _ h
    · split
      · intro lv hlv
        simp only [List.mem_cons] at hlv
        rcases hlv with rfl | rfl | hlv
        · exact Or.inl rfl
        · right; simp
        · right; exact List.mem_cons_of_mem _ (List.mem_map_of_mem Prod.fst hlv)
      · intro lv hlv
        simp only [List.mem_cons] at hlv
        rcases hlv with rfl | hlv
        · right; simp
        · right; exact List.mem_cons_of_mem _ (List.mem_map_of_mem Prod.fst hlv)

theorem push_back_at_sorted (side : Side) (price : Nat) (o : Order) (m : OrderMap)
    (hs : OrderMap.Sorted (ownComparator side) m) :
    OrderMap.Sorted (ownComparator side) (push_back_at (ownComparator side) price o m) := by
  induction m with
  | nil => simp [push_back_at, OrderMap.Sorted]
  | cons lv0 rest ih =>
    obtain ⟨k, l⟩ := lv0
    unfold OrderMap.Sorted at hs ih ⊢
    rw [List.pairwise_cons] at hs
    simp only [push_back_at]
    by_cases h1 : ownComparator side k price = true
    · rw [if_pos h1, List.pairwise_cons]
      refine ⟨?_, ih hs.2⟩
      intro lv hlv
      rcases push_back_at_keys _ _ _ _ lv hlv with h | h
      · rw [h]; exact h1
      · rw [List.mem_map] at h
        obtain ⟨lv2, hlv2, e⟩ := h
        rw [← e]; exact hs.1 lv2 hlv2
    · rw [if_neg h1]
      by_cases h2 : ownComparator side price k = true
      · rw [if_pos h2, List.pairwise_cons, List.pairwise_cons]
        refine ⟨?_, hs⟩
        intro lv hlv
        simp only [List.mem_cons] at hlv
        rcases hlv with rfl | hlv
        · exact h2
        · exact ownComparator_trans side _ _ _ h2 (hs.1 lv hlv)
      · rw [if_neg h2, List.pairwise_cons]
        exact hs

theorem push_back_at_find (side : Side) (price : Nat) (o : Order) (m : OrderMap)
    (hs : OrderMap.Sorted (ownComparator side) m) (p : Nat) :
    map_find p (push_back_at (ownComparator side) price o m) =
      if p = price then some (queueAt price m ++ [o]) else map_find p m := by
  induction m with
  | nil =>
    simp only [push_back_at, map_find, queueAt, Option.getD_none, List.nil_append]
    by_cases hp : p = price
    · rw [if_pos hp, if_pos hp.symm]
    · rw [if_neg hp, if_neg (fun e => hp e.symm)]
  | cons lv0 rest ih =>
    obtain ⟨k, l⟩ := lv0
    unfold OrderMap.Sorted at hs ih
    rw [List.pairwise_cons] at hs
    simp only [push_back_at]
    by_cases h1 : ownComparator side k price = true
    · have hk : k ≠ price := by
        intro e
        rw [e, ownComparator_irrefl] at h1
        exact Bool.false_ne_true h1
      rw [if_pos h1]
      simp only [map_find]
      rw [ih hs.2]
      have hq : queueAt price ((k, l) :: rest) = queueAt price rest := by
        simp [queueAt, map_find, hk]
      rw [hq]
      by_cases hp : p = price
      · rw [if_pos hp, if_pos hp, if_neg (by rw [hp]; exact hk)]
      · rw [if_neg hp, if_neg hp]
    · rw [if_neg h1]
      by_cases h2 : ownComparator side price k = true
      · rw [if_pos h2]
        have hnone : map_find price ((k, l) :: rest) = none := by
          apply map_find_eq_none
          intro hmem
          rw [List.mem_map] at hmem
          obtain ⟨lv, hlv, e⟩ := hmem
          have hlt : ownComparator side price lv.1 = true := by
            simp only [List.mem_cons] at hlv
            rcases hlv with rfl | hlv
            · exact h2
            · exact ownComparator_trans side _ _ _ h2 (hs.1 lv hlv)
          rw [e, ownComparator_irrefl] at hlt
          exact Bool.false_ne_true hlt
        have hq : queueAt price ((k, l) :: rest) = [] := by
          simp [queueAt, hnone]
        rw [hq]
        conv_lhs => rw [map_find]
        by_cases hp : p = price
        · rw [if_pos hp, if_pos hp.symm]; rfl
        · rw [if_neg hp, if_neg (fun e => hp e.symm)]
      · rw [if_neg h2]
        have hk : k = price := ownComparator_trichotomy side k price
          (by simpa using h1) (by simpa using h2)
        subst hk
        have hq : queueAt k ((k, l) :: rest) = l := by
          simp [queueAt, map_find]
        rw [hq]
        simp only [map_find]
        by_cases hp : p = k
        · rw [if_pos hp, if_pos hp.symm]
        · rw [if_neg hp, if_neg (fun e => hp e.symm), if_neg (fun e => hp e.symm)]

/-! ## Lookup -/

theorem lookup_order_in_map_eq_none (i : Nat) (m : OrderMap) :
    lookup_order_in_map i m = none ↔ OrderMap.Fresh m i := by
  induction m with
  | nil => simp [lookup_order_in_map, OrderMap.Fresh]
  | cons lv rest ih =>
    obtain ⟨p, l⟩ := lv
    simp only [lookup_order_in_map]
    cases hfind : l.find? (fun o => decide (o.id = i)) with
    | none =>
      simp only []
      rw [ih]
      rw [List.find?_eq_none] at hfind
      constructor
      · intro h lv hlv
        simp only [List.mem_cons] at hlv
        rcases hlv with rfl | hlv
        · intro x hx
          simpa using hfind x hx
        · exact h lv hlv
      · intro h lv hlv
        exact h lv (List.mem_cons_of_mem _ hlv)
    | some x =>
      simp only []
      constructor
      · intro h; cases h
      · intro h
        have hx := List.mem_of_find?_eq_some hfind
        have hid := List.find?_some hfind
        exact absurd (by simpa using hid) (h (p, l) (List.mem_cons_self _ _) x hx)

theorem lookup_order_in_map_some (i : Nat) (m : OrderMap) (x : Order)
    (h : lookup_order_in_map i m = some x) : OrderMap.Rests m x ∧ x.id = i := by
  induction m with
  | nil => simp [lookup_order_in_map] at h
  | cons lv rest ih =>
    obtain ⟨p, l⟩ := lv
    simp only [lookup_order_in_map] at h
    cases hfind : l.find? (fun o => decide (o.id = i)) with
    | none =>
      rw [hfind] at h
      obtain ⟨⟨lv, hlv, hx⟩, hid⟩ := ih h
      exact ⟨⟨lv, List.mem_cons_of_mem _ hlv, hx⟩, hid⟩
    | some y =>
      rw [hfind] at h
      simp only [Option.some.injEq] at h
      subst h
      exact ⟨⟨(p, l), List.mem_cons_self _ _, List.mem_of_find?_eq_some hfind⟩,
        by simpa using List.find?_some hfind⟩

theorem fresh_iff_not_rests (m : OrderMap) (i : Nat) :
    OrderMap.Fresh m i ↔ ¬ ∃ x, OrderMap.Rests m x ∧ x.id = i := by
  constructor
  · rintro h ⟨x, ⟨lv, hlv, hx⟩, hid⟩
    exact h lv hlv x hx hid
  · intro h lv hlv x hx hid
    exact h ⟨x, ⟨lv, hlv, hx⟩, hid⟩

theorem process_orders_queue_fresh (o : Order) (c : Nat) (l : List Order) (i : Nat)
    (h : ∀ x ∈ l, x.id ≠ i) : ∀ x ∈ (process_orders_queue o c l).2.2, x.id ≠ i := by
  induction l generalizing o c with
  | nil => simp [process_orders_queue]
  | cons r rest ih =>
    have hrest : ∀ x ∈ rest, x.id ≠ i := fun x hx => h x (List.mem_cons_of_mem _ hx)
    simp only [process_orders_queue]
    split
    · split
      · exact ih _ _ hrest
      · intro x hx
        simp only [List.mem_cons] at hx
        rcases hx with rfl | hx
        · exact h r (List.mem_cons_self _ _)
        · exact ih _ _ hrest x hx
    · exact h

theorem process_orders_levels_fresh (cond : Nat → Nat → Bool) (o : Order) (c : Nat)
    (m : OrderMap) (i : Nat) (h : OrderMap.Fresh m i) :
    OrderMap.Fresh (process_orders_levels cond o c m).2.2 i := by
  induction m generalizing o c with
  | nil => simp [process_orders_levels, OrderMap.Fresh]
  | cons lv rest ih =>
    obtain ⟨p, l⟩ := lv
    have hrest : OrderMap.Fresh rest i := fun x hx => h x (List.mem_cons_of_mem _ hx)
    have hl := h (p, l) (List.mem_cons_self _ _)
    simp only [process_orders_levels]
    split
    · split
      · exact ih _ _ hrest
      · intro lv hlv
        simp only [List.mem_cons] at hlv
        rcases hlv with rfl | hlv
        · exact process_orders_queue_fresh o c l i hl
        · exact ih _ _ hrest lv hlv
    · exact h

theorem find_id_eq_none (l : List Order) (i : Nat) (h : ∀ x ∈ l, x.id ≠ i) :
    l.find? (fun o => decide (o.id = i)) = none := by
  rw [List.find?_eq_none]
  intro x hx
  simpa using h x hx

theorem lookup_push_back_at (comp : Nat → Nat → Bool) (price : Nat) (o : Order) (m : OrderMap)
    (h : OrderMap.Fresh m o.id) :
    lookup_order_in_map o.id (push_back_at comp price o m) = some o := by
  induction m with
  | nil => simp [push_back_at, lookup_order_in_map]
  | cons lv rest ih =>
    obtain ⟨k, l⟩ := lv
    have hrest : OrderMap.Fresh rest o.id := fun x hx => h x (List.mem_cons_of_mem _ hx)
    have hl := find_id_eq_none l o.id (h (k, l) (List.mem_cons_self _ _))
    simp only [push_back_at]
    split
    · simp only [lookup_order_in_map]
      rw [hl]
      exact ih hrest
    · split
      · simp [lookup_order_in_map]
      · simp only [lookup_order_in_map]
        rw [List.find?_append, hl]
        simp

theorem rests_of_mem_opposite (b : Orderbook) (side : Side) (lv : Nat × List Order)
    (x : Order) (hlv : lv ∈ oppositeSide side b) (hx : x ∈ lv.2) : b.Rests x := by
  cases side with
  | BUY => exact Or.inr ⟨lv, hlv, hx⟩
  | SELL => exact Or.inl ⟨lv, hlv, hx⟩

theorem rests_of_mem_own (b : Orderbook) (side : Side) (lv : Nat × List Order)
    (x : Order) (hlv : lv ∈ ownSide side b) (hx : x ∈ lv.2) : b.Rests x := by
  cases side with
  | BUY => exact Or.inl ⟨lv, hlv, hx⟩
  | SELL => exact Or.inr ⟨lv, hlv, hx⟩

/-- When no order with the id rests on the opposite ladder, the two lookups
are decided by the own ladder. -/
theorem lookup_by_own_side (b : Orderbook) (side : Side) (i : Nat)
    (h : OrderMap.Fresh (oppositeSide side b) i) :
    lookup_order_by_id b i =
      (match lookup_order_in_map i (ownSide side b) with
        | some x => Except.ok x
        | none => Except.error EngineError.orderNotFound) ∧
    order_exists b i = (lookup_order_in_map i (ownSide side b)).isSome := by
  have hn := (lookup_order_in_map_eq_none i _).mpr h
  unfold lookup_order_by_id order_exists
  cases side with
  | BUY =>
    simp only [oppositeSide, ownSide] at hn ⊢
    rw [hn]
    cases lookup_order_in_map i b.buyOrders <;> simp
  | SELL =>
    simp only [oppositeSide, ownSide] at hn ⊢
    rw [hn]
    simp

/-! ## Modify -/

theorem modify_order_in_list_absent (i q : Nat) (l : List Order) (h : ∀ x ∈ l, x.id ≠ i) :
    modify_order_in_list i q l = (false, l) := by
  induction l with
  | nil => rfl
  | cons r rest ih =>
    have hr := h r (List.mem_cons_self _ _)
    have hrest := ih (fun x hx => h x (List.mem_cons_of_mem _ hx))
    simp only [modify_order_in_list]
    rw [if_neg hr, hrest]

theorem modify_order_in_list_present (i q : Nat) (l : List Order) (hq : q ≠ 0)
    (h : ∃ x ∈ l, x.id = i) :
    ∃ xs x ys, l = xs ++ x :: ys ∧ x.id = i ∧ (∀ y ∈ xs, y.id ≠ i) ∧
      modify_order_in_list i q l = (true, xs ++ { x with quantity := q } :: ys) := by
  induction l with
  | nil =>
    obtain ⟨x, hx, -⟩ := h
    cases hx
  | cons r rest ih =>
    by_cases hr : r.id = i
    · refine ⟨[], r, rest, rfl, hr, by simp, ?_⟩
      simp only [modify_order_in_list]
      rw [if_pos hr, if_neg hq]
      rfl
    · have hrest : ∃ x ∈ rest, x.id = i := by
        obtain ⟨x, hx, hid⟩ := h
        simp only [List.mem_cons] at hx
        rcases hx with rfl | hx
        · exact absurd hid hr
        · exact ⟨x, hx, hid⟩
      obtain ⟨xs, x, ys, hl, hid, hxs, hres⟩ := ih hrest
      refine ⟨r :: xs, x, ys, by rw [hl]; rfl, hid, ?_, ?_⟩
      · intro y hy
        simp only [List.mem_cons] at hy
        rcases hy with rfl | hy
        · exact hr
        · exact hxs y hy
      · simp only [modify_order_in_list]
        rw [if_neg hr, hres]
        rfl

theorem modify_order_in_map_absent (i q : Nat) (m : OrderMap) (h : OrderMap.Fresh m i)
    (hne : ∀ lv ∈ m, lv.2 ≠ []) : modify_order_in_map i q m = (false, m) := by
  induction m with
  | nil => rfl
  | cons lv rest ih =>
    obtain ⟨p, l⟩ := lv
    have hl := modify_order_in_list_absent i q l (h (p, l) (List.mem_cons_self _ _))
    have hrest := ih (fun x hx => h x (List.mem_cons_of_mem _ hx))
      (fun x hx => hne x (List.mem_cons_of_mem _ hx))
    have hnl : l ≠ [] := hne (p, l) (List.mem_cons_self _ _)
    simp only [modify_order_in_map]
    rw [hl, hrest]
    simp [hnl]

theorem modify_order_in_map_present (i q : Nat) (m : OrderMap) (hq : q ≠ 0)
    (h : ¬ OrderMap.Fresh m i) (hne : ∀ lv ∈ m, lv.2 ≠ []) :
    (modify_order_in_map i q m).1 = true ∧
      ModifiedInPlace i q m (modify_order_in_map i q m).2 := by
  induction m with
  | nil => exact absurd (by simp [OrderMap.Fresh]) h
  | cons lv rest ih =>
    obtain ⟨p, l⟩ := lv
    simp only [modify_order_in_map]
    by_cases hl : ∃ x ∈ l, x.id = i
    · obtain ⟨xs, x, ys, hl, hid, hxs, hres⟩ := modify_order_in_list_present i q l hq hl
      rw [hres]
      simp only [if_true]
      refine ⟨trivial, [], p, xs, x, ys, rest, by rw [hl]; rfl, hid, ?_, hxs, rfl⟩
      simp [OrderMap.Fresh]
    · have hl2 : ∀ x ∈ l, x.id ≠ i := fun x hx hid => hl ⟨x, hx, hid⟩
      have hnl : l ≠ [] := hne (p, l) (List.mem_cons_self _ _)
      have hrest : ¬ OrderMap.Fresh rest i := by
        intro hf
        apply h
        intro lv hlv
        simp only [List.mem_cons] at hlv
        rcases hlv with rfl | hlv
        · exact hl2
        · exact hf lv hlv
      obtain ⟨hfound, pre, p2, xs, x, ys, post, hm, hid, hpre, hxs, hres⟩ :=
        ih hrest (fun x hx => hne x (List.mem_cons_of_mem _ hx))
      rw [modify_order_in_list_absent i q l hl2]
      simp only [Bool.false_eq_true, if_false, List.isEmpty_eq_true, hnl]
      refine ⟨hfound, (p, l) :: pre, p2, xs, x, ys, post, by rw [hm]; rfl, hid, ?_, hxs,
        by rw [hres]; rfl⟩
      intro lv hlv
      simp only [List.mem_cons] at hlv
      rcases hlv with rfl | hlv
      · exact hl2
      · exact hpre lv hlv

/-- The cancel path of `modify_order_in_map` never leaves through
`return true`: with `new_quantity = 0` the result is always `false`. -/
theorem modify_order_in_map_cancel_false (i : Nat) (m : OrderMap) :
    (modify_order_in_map i 0 m).1 = false := by
  have hlist : ∀ l : List Order, (modify_order_in_list i 0 l).1 = false := by
    intro l
    induction l with
    | nil => rfl
    | cons r rest ih =>
      simp only [modify_order_in_list]
      split
      · simpa using ih
      · exact ih
  induction m with
  | nil => rfl
  | cons lv rest ih =>
    obtain ⟨p, l⟩ := lv
    simp only [modify_order_in_map]
    rw [hlist l]
    simp only [Bool.false_eq_true, if_false]
    split
    · exact ih
    · exact ih

/-- With a non-zero new quantity the result of `modify_order_in_map` is true
exactly when an order with the id rests in the ladder. -/
theorem modify_order_in_map_found_iff (i q : Nat) (m : OrderMap) (hq : q ≠ 0) :
    (modify_order_in_map i q m).1 = true ↔ ¬ OrderMap.Fresh m i := by
  induction m with
  | nil => simp [modify_order_in_map, OrderMap.Fresh]
  | cons lv rest ih =>
    obtain ⟨p, l⟩ := lv
    have hfresh : OrderMap.Fresh ((p, l) :: rest) i ↔
        (∀ x ∈ l, x.id ≠ i) ∧ OrderMap.Fresh rest i := by
      simp [OrderMap.Fresh]
    rw [hfresh]
    simp only [modify_order_in_map]
    by_cases hl : ∃ x ∈ l, x.id = i
    · obtain ⟨xs, x, ys, -, -, -, hres⟩ := modify_order_in_list_present i q l hq hl
      rw [hres]
      simp only [if_true, true_iff, not_and]
      intro hall
      obtain ⟨x, hx, hid⟩ := hl
      exact absurd hid (hall x hx)
    · have hl2 : ∀ x ∈ l, x.id ≠ i := fun x hx hid => hl ⟨x, hx, hid⟩
      rw [modify_order_in_list_absent i q l hl2]
      simp only [Bool.false_eq_true, if_false]
      have e : (¬ ((∀ x ∈ l, x.id ≠ i) ∧ OrderMap.Fresh rest i)) ↔ ¬ OrderMap.Fresh rest i := by
        constructor
        · intro h hf; exact h ⟨hl2, hf⟩
        · intro h hf; exact h hf.2
      rw [e, ← ih]
      split <;> rfl

/-! ## Preservation of the no-phantom invariant -/

theorem process_orders_queue_pos (o : Order) (c : Nat) (l : List Order)
    (h : ∀ x ∈ l, x.quantity ≠ 0) :
    ∀ x ∈ (process_orders_queue o c l).2.2, x.quantity ≠ 0 := by
  induction l generalizing o c with
  | nil => simp [process_orders_queue]
  | cons r rest ih =>
    have hrest : ∀ x ∈ rest, x.quantity ≠ 0 := fun x hx => h x (List.mem_cons_of_mem _ hx)
    simp only [process_orders_queue]
    by_cases hq : o.quantity > 0
    · rw [if_pos hq]
      split
      · exact ih _ _ hrest
      · next h0 =>
        intro x hx
        simp only [List.mem_cons] at hx
        rcases hx with rfl | hx
        · exact h0
        · exact ih _ _ hrest x hx
    · rw [if_neg hq]
      exact h

theorem process_orders_levels_clean (cond : Nat → Nat → Bool) (o : Order) (c : Nat)
    (m : OrderMap) (h : OrderMap.Clean m) :
    OrderMap.Clean (process_orders_levels cond o c m).2.2 := by
  induction m generalizing o c with
  | nil => simp [process_orders_levels, OrderMap.Clean]
  | cons lv rest ih =>
    obtain ⟨p, l⟩ := lv
    have hrest : OrderMap.Clean rest := fun x hx => h x (List.mem_cons_of_mem _ hx)
    have hl := h (p, l) (List.mem_cons_self _ _)
    simp only [process_orders_levels]
    by_cases hc : o.quantity > 0 ∧ cond p o.price = true
    · rw [if_pos hc]
      by_cases he : (process_orders_queue o c l).2.2.isEmpty = true
      · rw [if_pos he]
        exact ih _ _ hrest
      · rw [if_neg he]
        intro lv hlv
        simp only [List.mem_cons] at hlv
        rcases hlv with rfl | hlv
        · refine ⟨?_, process_orders_queue_pos o c l hl.2⟩
          simpa using he
        · exact ih _ _ hrest lv hlv
    · rw [if_neg hc]
      exact h

theorem push_back_at_clean (comp : Nat → Nat → Bool) (price : Nat) (o : Order) (m : OrderMap)
    (ho : o.quantity ≠ 0) (h : OrderMap.Clean m) :
    OrderMap.Clean (push_back_at comp price o m) := by
  induction m with
  | nil =>
    intro lv hlv
    simp only [push_back_at, List.mem_singleton] at hlv
    subst hlv
    simp [ho]
  | cons lv rest ih =>
    obtain ⟨k, l⟩ := lv
    have hrest : OrderMap.Clean rest := fun x hx => h x (List.mem_cons_of_mem _ hx)
    have hl := h (k, l) (List.mem_cons_self _ _)
    simp only [push_back_at]
    split
    · intro lv hlv
      simp only [List.mem_cons] at hlv
      rcases hlv with rfl | hlv
      · exact hl
      · exact ih hrest lv hlv
    · split
      · intro lv hlv
        simp only [List.mem_cons] at hlv
        rcases hlv with rfl | hlv
        · simp [ho]
        · exact h lv (by simpa using hlv)
      · intro lv hlv
        simp only [List.mem_cons] at hlv
        rcases hlv with rfl | hlv
        · refine ⟨by simp, ?_⟩
          intro x hx
          simp only [List.mem_append, List.mem_singleton] at hx
          rcases hx with hx | rfl
          · exact hl.2 x hx
          · exact ho
        · exact hrest lv hlv

theorem modify_order_in_list_pos (i q : Nat) (l : List Order)
    (h : ∀ x ∈ l, x.quantity ≠ 0) :
    ∀ x ∈ (modify_order_in_list i q l).2, x.quantity ≠ 0 := by
  induction l with
  | nil => simp [modify_order_in_list]
  | cons r rest ih =>
    have hrest : ∀ x ∈ rest, x.quantity ≠ 0 := fun x hx => h x (List.mem_cons_of_mem _ hx)
    simp only [modify_order_in_list]
    split
    · split
      · exact ih hrest
      · next hq =>
        intro x hx
        simp only [List.mem_cons] at hx
        rcases hx with rfl | hx
        · exact hq
        · exact hrest x hx
    · intro x hx
      simp only [List.mem_cons] at hx
      rcases hx with rfl | hx
      · exact h _ (List.mem_cons_self _ _)
      · exact ih hrest x hx

theorem modify_order_in_list_found_ne_nil (i q : Nat) (l : List Order)
    (h : (modify_order_in_list i q l).1 = true) : (modify_order_in_list i q l).2 ≠ [] := by
  induction l with
  | nil => simp [modify_order_in_list] at h
  | cons r rest ih =>
    simp only [modify_order_in_list] at h ⊢
    split
    · next hid =>
      rw [if_pos hid] at h
      split
      · next hq =>
        rw [if_pos hq] at h
        exact ih h
      · simp
    · simp

theorem modify_order_in_map_clean (i q : Nat) (m : OrderMap) (h : OrderMap.Clean m) :
    OrderMap.Clean (modify_order_in_map i q m).2 := by
  induction m with
  | nil => simp [modify_order_in_map, OrderMap.Clean]
  | cons lv rest ih =>
    obtain ⟨p, l⟩ := lv
    have hrest : OrderMap.Clean rest := fun x hx => h x (List.mem_cons_of_mem _ hx)
    have hl := h (p, l) (List.mem_cons_self _ _)
    simp only [modify_order_in_map]
    by_cases hf : (modify_order_in_list i q l).1 = true
    · rw [if_pos hf]
      intro lv hlv
      simp only [List.mem_cons] at hlv
      rcases hlv with rfl | hlv
      · exact ⟨modify_order_in_list_found_ne_nil i q l hf, modify_order_in_list_pos i q l hl.2⟩
      · exact hrest lv hlv
    · rw [if_neg hf]
      by_cases he : (modify_order_in_list i q l).2.isEmpty = true
      · rw [if_pos he]
        exact ih hrest
      · rw [if_neg he]
        intro lv hlv
        simp only [List.mem_cons] at hlv
        rcases hlv with rfl | hlv
        · exact ⟨by simpa using he, modify_order_in_list_pos i q l hl.2⟩
        · exact ih hrest lv hlv

theorem match_order_clean (b : Orderbook) (o : Order)
    (h : OrderMap.Clean b.buyOrders ∧ OrderMap.Clean b.sellOrders) :
    OrderMap.Clean (match_order b o).2.buyOrders ∧
      OrderMap.Clean (match_order b o).2.sellOrders := by
  unfold match_order process_orders
  cases o.side with
  | BUY =>
    simp only []
    split
    · next hq =>
      exact ⟨push_back_at_clean _ _ _ _ (by omega) h.1, process_orders_levels_clean _ _ _ _ h.2⟩
    · exact ⟨h.1, process_orders_levels_clean _ _ _ _ h.2⟩
  | SELL =>
    simp only []
    split
    · next hq =>
      exact ⟨process_orders_levels_clean _ _ _ _ h.1, push_back_at_clean _ _ _ _ (by omega) h.2⟩
    · exact ⟨process_orders_levels_clean _ _ _ _ h.1, h.2⟩

theorem modify_order_by_id_clean (b : Orderbook) (i q : Nat)
    (h : OrderMap.Clean b.buyOrders ∧ OrderMap.Clean b.sellOrders) :
    OrderMap.Clean (modify_order_by_id b i q).buyOrders ∧
      OrderMap.Clean (modify_order_by_id b i q).sellOrders := by
  unfold modify_order_by_id
  simp only []
  split
  · exact ⟨modify_order_in_map_clean i q _ h.1, h.2⟩
  · exact ⟨modify_order_in_map_clean i q _ h.1, modify_order_in_map_clean i q _ h.2⟩

theorem foldl_applyOp_clean (ops : List Op) (b : Orderbook)
    (h : OrderMap.Clean b.buyOrders ∧ OrderMap.Clean b.sellOrders) :
    OrderMap.Clean (ops.foldl applyOp b).buyOrders ∧
      OrderMap.Clean (ops.foldl applyOp b).sellOrders := by
  induction ops generalizing b with
  | nil => exact h
  | cons op rest ih =>
    simp only [List.foldl_cons]
    apply ih
    cases op with
    | matchOrder incoming => exact match_order_clean b incoming h
    | modifyOrder order_id new_quantity => exact modify_order_by_id_clean b order_id new_quantity h

/-! ## Preservation of the key order

Every entry point keeps the ladders key-sorted, so every book reached from
`create_orderbook` is well-formed. -/

theorem process_orders_levels_sorted (comp cond : Nat → Nat → Bool) (o : Order) (c : Nat)
    (m : OrderMap) (hs : OrderMap.Sorted comp m) :
    OrderMap.Sorted comp (process_orders_levels cond o c m).2.2 := by
  induction m generalizing o c with
  | nil => simp [process_orders_levels, OrderMap.Sorted]
  | cons lv rest ih =>
    obtain ⟨p, l⟩ := lv
    unfold OrderMap.Sorted at hs ih ⊢
    have hs2 := hs
    rw [List.pairwise_cons] at hs2
    simp only [process_orders_levels]
    split
    · split
      · exact ih _ _ hs2.2
      · simp only []
        rw [List.pairwise_cons]
        refine ⟨?_, ih _ _ hs2.2⟩
        intro lv hlv
        have hk := process_orders_levels_keys _ _ _ _ lv hlv
        rw [List.mem_map] at hk
        obtain ⟨lv2, hlv2, e⟩ := hk
        rw [← e]
        exact hs2.1 lv2 hlv2
    · exact hs

theorem modify_order_in_map_keys (i q : Nat) (m : OrderMap) :
    ∀ lv ∈ (modify_order_in_map i q m).2, lv.1 ∈ m.map Prod.fst := by
  induction m with
  | nil => simp [modify_order_in_map]
  | cons lv0 rest ih =>
    obtain ⟨p, l⟩ := lv0
    simp only [modify_order_in_map]
    split
    · intro lv hlv
      simp only [List.mem_cons] at hlv
      rcases hlv with rfl | hlv
      · simp
      · exact List.mem_cons_of_mem _ (List.mem_map_of_mem Prod.fst hlv)
    · split
      · intro lv hlv
        exact List.mem_cons_of_mem _ (ih lv hlv)
      · intro lv hlv
        simp only [List.mem_cons] at hlv
        rcases hlv with rfl | hlv
        · simp
        · exact List.mem_cons_of_mem _ (ih lv hlv)

theorem modify_order_in_map_sorted (comp : Nat → Nat → Bool) (i q : Nat) (m : OrderMap)
    (hs : OrderMap.Sorted comp m) : OrderMap.Sorted comp (modify_order_in_map i q m).2 := by
  induction m with
  | nil => simp [modify_order_in_map, OrderMap.Sorted]
  | cons lv rest ih =>
    obtain ⟨p, l⟩ := lv
    unfold OrderMap.Sorted at hs ih ⊢
    have hs2 := hs
    rw [List.pairwise_cons] at hs2
    simp only [modify_order_in_map]
    split
    · rw [List.pairwise_cons]
      exact hs2
    · split
      · exact ih hs2.2
      · simp only []
        rw [List.pairwise_cons]
        refine ⟨?_, ih hs2.2⟩
        intro lv hlv
        have hk := modify_order_in_map_keys i q rest lv hlv
        rw [List.mem_map] at hk
        obtain ⟨lv2, hlv2, e⟩ := hk
        rw [← e]
        exact hs2.1 lv2 hlv2

theorem match_order_wellFormed (b : Orderbook) (o : Order) (hwf : b.WellFormed) :
    (match_order b o).2.WellFormed := by
  unfold match_order process_orders Orderbook.WellFormed
  cases o.side with
  | BUY =>
    simp only []
    split
    · exact ⟨push_back_at_sorted Side.BUY _ _ _ hwf.1,
        process_orders_levels_sorted _ _ _ _ _ hwf.2⟩
    · exact ⟨hwf.1, process_orders_levels_sorted _ _ _ _ _ hwf.2⟩
  | SELL =>
    simp only []
    split
    · exact ⟨process_orders_levels_sorted _ _ _ _ _ hwf.1,
        push_back_at_sorted Side.SELL _ _ _ hwf.2⟩
    · exact ⟨process_orders_levels_sorted _ _ _ _ _ hwf.1, hwf.2⟩

theorem modify_order_by_id_wellFormed (b : Orderbook) (i q : Nat) (hwf : b.WellFormed) :
    (modify_order_by_id b i q).WellFormed := by
  unfold modify_order_by_id Orderbook.WellFormed
  simp only []
  split
  · exact ⟨modify_order_in_map_sorted _ i q _ hwf.1, hwf.2⟩
  · exact ⟨modify_order_in_map_sorted _ i q _ hwf.1, modify_order_in_map_sorted _ i q _ hwf.2⟩

theorem foldl_applyOp_wellFormed (ops : List Op) (b : Orderbook) (hwf : b.WellFormed) :
    (ops.foldl applyOp b).WellFormed := by
  induction ops generalizing b with
  | nil => exact hwf
  | cons op rest ih =>
    simp only [List.foldl_cons]
    apply ih
    cases op with
    | matchOrder incoming => exact match_order_wellFormed b incoming hwf
    | modifyOrder order_id new_quantity => exact modify_order_by_id_wellFormed b order_id new_quantity hwf

/-- Every book reached from the empty book is well-formed. -/
theorem runOps_wellFormed (ops : List Op) : (runOps ops).WellFormed :=
  foldl_applyOp_wellFormed ops create_orderbook
    ⟨by simp [create_orderbook, OrderMap.Sorted], by simp [create_orderbook, OrderMap.Sorted]⟩

/-! ## Cancel -/

theorem modify_order_in_list_cancel (i : Nat) (l : List Order) :
    modify_order_in_list i 0 l = (false, l.filter (fun o => decide (o.id ≠ i))) := by
  induction l with
  | nil => rfl
  | cons r rest ih =>
    simp only [modify_order_in_list, List.filter_cons]
    by_cases hr : r.id = i
    · simp [hr, ih]
    · simp [hr, ih]

/-- With new quantity 0, `modify_order_in_map` removes every order with the
id from every queue and erases every level whose queue is then empty. -/
theorem modify_order_in_map_cancel (i : Nat) (m : OrderMap) :
    modify_order_in_map i 0 m =
      (false, (m.map (fun lv => (lv.1, lv.2.filter (fun o => decide (o.id ≠ i))))).filter
        (fun lv => !lv.2.isEmpty)) := by
  induction m with
  | nil => rfl
  | cons lv rest ih =>
    obtain ⟨p, l⟩ := lv
    simp only [modify_order_in_map]
    rw [modify_order_in_list_cancel, ih]
    simp only [Bool.false_eq_true, if_false, List.map_cons, List.filter_cons]
    by_cases he : (l.filter (fun o => decide (o.id ≠ i))).isEmpty = true
    · simp only [he, Bool.not_true, Bool.false_eq_true, if_false, if_true]
    · have he2 : (l.filter (fun o => decide (o.id ≠ i))).isEmpty = false := by simpa using he
      simp only [he2, Bool.not_false, Bool.false_eq_true, if_false, if_true]

theorem modify_order_in_map_cancel_append (i : Nat) (m1 m2 : OrderMap) :
    (modify_order_in_map i 0 (m1 ++ m2)).2 =
      (modify_order_in_map i 0 m1).2 ++ (modify_order_in_map i 0 m2).2 := by
  simp only [modify_order_in_map_cancel, List.map_append, List.filter_append]

theorem modify_order_in_map_cancel_fresh (i : Nat) (m : OrderMap) :
    OrderMap.Fresh (modify_order_in_map i 0 m).2 i := by
  rw [modify_order_in_map_cancel]
  intro lv hlv x hx
  simp only [List.mem_filter, List.mem_map] at hlv
  obtain ⟨⟨lv0, -, rfl⟩, -⟩ := hlv
  simp only [List.mem_filter, decide_eq_true_eq] at hx
  exact hx.2

theorem modify_order_in_map_cancel_nonempty (i : Nat) (m : OrderMap) :
    ∀ lv ∈ (modify_order_in_map i 0 m).2, lv.2 ≠ [] := by
  rw [modify_order_in_map_cancel]
  intro lv hlv
  simp only [List.mem_filter] at hlv
  simpa using hlv.2

theorem modify_order_by_id_cancel (b : Orderbook) (i : Nat) :
    modify_order_by_id b i 0 =
      { buyOrders := (modify_order_in_map i 0 b.buyOrders).2,
        sellOrders := (modify_order_in_map i 0 b.sellOrders).2 } := by
  unfold modify_order_by_id
  simp only [modify_order_in_map_cancel_false, Bool.false_eq_true, if_false]

theorem allOrders_append (m1 m2 : OrderMap) :
    allOrders (m1 ++ m2) = allOrders m1 ++ allOrders m2 := by
  induction m1 with
  | nil => rfl
  | cons lv rest ih =>
    obtain ⟨p, l⟩ := lv
    rw [List.cons_append]
    simp only [allOrders, ih, List.append_assoc]

theorem mem_allOrders (m : OrderMap) (x : Order) : x ∈ allOrders m ↔ OrderMap.Rests m x := by
  induction m with
  | nil => simp [allOrders, OrderMap.Rests]
  | cons lv rest ih =>
    obtain ⟨p, l⟩ := lv
    simp only [allOrders, List.mem_append, ih, OrderMap.Rests, List.mem_cons]
    constructor
    · rintro (h | ⟨lv, hlv, hx⟩)
      · exact ⟨(p, l), Or.inl rfl, h⟩
      · exact ⟨lv, Or.inr hlv, hx⟩
    · rintro ⟨lv, rfl | hlv, hx⟩
      · exact Or.inl hx
      · exact Or.inr ⟨lv, hlv, hx⟩

theorem fresh_iff_allOrders (m : OrderMap) (i : Nat) :
    OrderMap.Fresh m i ↔ ∀ y ∈ allOrders m, y.id ≠ i := by
  constructor
  · intro h y hy
    rw [mem_allOrders] at hy
    obtain ⟨lv, hlv, hx⟩ := hy
    exact h lv hlv y hx
  · intro h lv hlv x hx
    exact h x ((mem_allOrders m x).mpr ⟨lv, hlv, hx⟩)

/-- In a list of orders with pairwise distinct ids, the id of one order of a
ladder occurs nowhere else. -/
theorem unique_of_nodup (front back : List Order) (pre post : OrderMap) (p : Nat)
    (xs ys : List Order) (x : Order)
    (h : ((front ++ allOrders (pre ++ (p, xs ++ x :: ys) :: post) ++ back).map
      (fun o => o.id)).Nodup) :
    (∀ y ∈ front, y.id ≠ x.id) ∧ OrderMap.Fresh pre x.id ∧ (∀ y ∈ xs, y.id ≠ x.id) ∧
      (∀ y ∈ ys, y.id ≠ x.id) ∧ OrderMap.Fresh post x.id ∧ (∀ y ∈ back, y.id ≠ x.id) := by
  have e : front ++ allOrders (pre ++ (p, xs ++ x :: ys) :: post) ++ back =
      (front ++ allOrders pre ++ xs) ++ x :: (ys ++ allOrders post ++ back) := by
    simp [allOrders_append, allOrders, List.append_assoc]
  rw [e, List.map_append, List.map_cons, List.nodup_middle, List.nodup_cons] at h
  have hx : ∀ y, y ∈ front ++ allOrders pre ++ xs ∨ y ∈ ys ++ allOrders post ++ back →
      y.id ≠ x.id := by
    intro y hy hid
    apply h.1
    rw [List.mem_append, List.mem_map, List.mem_map]
    rcases hy with hy | hy
    · exact Or.inl ⟨y, hy, hid⟩
    · exact Or.inr ⟨y, hy, hid⟩
  refine ⟨?_, ?_, ?_, ?_, ?_, ?_⟩
  · intro y hy
    exact hx y (Or.inl (by simp [hy]))
  · rw [fresh_iff_allOrders]
    intro y hy
    exact hx y (Or.inl (by simp [hy]))
  · intro y hy
    exact hx y (Or.inl (by simp [hy]))
  · intro y hy
    exact hx y (Or.inr (by simp [hy]))
  · rw [fresh_iff_allOrders]
    intro y hy
    exact hx y (Or.inr (by simp [hy]))
  · intro y hy
    exact hx y (Or.inr (by simp [hy]))

theorem filter_ne_id_eq_self (l : List Order) (i : Nat) (h : ∀ y ∈ l, y.id ≠ i) :
    l.filter (fun o => decide (o.id ≠ i)) = l := by
  rw [List.filter_eq_self]
  intro y hy
  simpa using h y hy

/-- Cancelling the only order with the id: what `modify_order_in_map` leaves
of the ladder. -/
theorem modify_order_in_map_cancel_unique (i : Nat) (pre post : OrderMap) (p : Nat)
    (xs ys : List Order) (x : Order) (hid : x.id = i)
    (hpre : OrderMap.Fresh pre i) (hxs : ∀ y ∈ xs, y.id ≠ i) (hys : ∀ y ∈ ys, y.id ≠ i)
    (hpost : OrderMap.Fresh post i)
    (hne : ∀ lv ∈ pre ++ (p, xs ++ x :: ys) :: post, lv.2 ≠ []) :
    (modify_order_in_map i 0 (pre ++ (p, xs ++ x :: ys) :: post)).2 =
      pre ++ (if xs ++ ys = [] then post else (p, xs ++ ys) :: post) := by
  have h1 : (modify_order_in_map i 0 pre).2 = pre := by
    rw [modify_order_in_map_absent i 0 pre hpre
      (fun lv hlv => hne lv (List.mem_append_left _ hlv))]
  have h2 : (modify_order_in_map i 0 post).2 = post := by
    rw [modify_order_in_map_absent i 0 post hpost
      (fun lv hlv => hne lv (List.mem_append_right _ (List.mem_cons_of_mem _ hlv)))]
  have h3 : (xs ++ x :: ys).filter (fun o => decide (o.id ≠ i)) = xs ++ ys := by
    rw [List.filter_append, List.filter_cons, filter_ne_id_eq_self xs i hxs,
      filter_ne_id_eq_self ys i hys]
    simp [hid]
  have h2f : modify_order_in_map i 0 post = (false, post) :=
    modify_order_in_map_absent i 0 post hpost
      (fun lv hlv => hne lv (List.mem_append_right _ (List.mem_cons_of_mem _ hlv)))
  have h4 : (modify_order_in_map i 0 ((p, xs ++ x :: ys) :: post)).2 =
      if xs ++ ys = [] then post else (p, xs ++ ys) :: post := by
    simp only [modify_order_in_map, modify_order_in_list_cancel, h3, Bool.false_eq_true,
      if_false, h2f]
    by_cases he : xs ++ ys = []
    · rw [if_pos he, he]; rfl
    · rw [if_neg he, if_neg (by simpa using he)]
  rw [modify_order_in_map_cancel_append, h1, h4]

/-- With a non-zero new quantity `modify_order_by_id` stops after the buy
ladder when the id rests there. -/
theorem modify_order_by_id_short_circuit (b : Orderbook) (i q : Nat) (hq : q ≠ 0)
    (h : ¬ OrderMap.Fresh b.buyOrders i) :
    (modify_order_by_id b i q).sellOrders = b.sellOrders := by
  unfold modify_order_by_id
  simp only [(modify_order_in_map_found_iff i q b.buyOrders hq).mpr h, if_true]

/-! ## Volume -/

theorem foldl_volume (l : List Order) (acc : Nat) (hacc : acc < UINT32_BOUND) :
    l.foldl (fun total o => (total + o.quantity) % UINT32_BOUND) acc =
      (acc + queueQuantity l) % UINT32_BOUND := by
  induction l generalizing acc with
  | nil =>
    simp only [List.foldl_nil, queueQuantity, List.map_nil, List.sum_nil, Nat.add_zero]
    exact (Nat.mod_eq_of_lt hacc).symm
  | cons x rest ih =>
    have hq : queueQuantity (x :: rest) = x.quantity + queueQuantity rest := by
      simp [queueQuantity]
    rw [List.foldl_cons, ih _ (Nat.mod_lt _ (by unfold UINT32_BOUND; omega)), hq]
    unfold UINT32_BOUND
    omega

theorem get_volume_at_level_eq (b : Orderbook) (side : Side) (price : Nat) :
    get_volume_at_level b side price =
      queueQuantity (queueAt price (ownSide side b)) % UINT32_BOUND := by
  unfold get_volume_at_level queueAt
  cases side with
  | BUY =>
    simp only [ownSide]
    cases map_find price b.buyOrders with
    | none => simp [queueQuantity]
    | some l =>
      simp only [Option.getD_some]
      rw [foldl_volume l 0 (by unfold UINT32_BOUND; omega), Nat.zero_add]
  | SELL =>
    simp only [ownSide]
    cases map_find price b.sellOrders with
    | none => simp [queueQuantity]
    | some l =>
      simp only [Option.getD_some]
      rw [foldl_volume l 0 (by unfold UINT32_BOUND; omega), Nat.zero_add]

/-- In a key-sorted ladder the level stored under a key is the one `find`
returns. -/
theorem map_find_of_mem (comp : Nat → Nat → Bool) (hirr : ∀ a, comp a a = false)
    (m : OrderMap) (hs : OrderMap.Sorted comp m) (p : Nat) (l : List Order)
    (hmem : (p, l) ∈ m) : map_find p m = some l := by
  obtain ⟨pre, post, rfl, hpre, -⟩ := sorted_split comp m hs p l hmem
  rw [map_find_append_of_not_mem p pre _ (not_mem_keys_of_forall comp hirr pre p (Or.inl hpre))]
  simp [map_find]

theorem queueQuantity_le (l : List Order) (h : ∀ x ∈ l, x.quantity < UINT16_BOUND) :
    queueQuantity l ≤ l.length * (UINT16_BOUND - 1) := by
  induction l with
  | nil => simp [queueQuantity]
  | cons x rest ih =>
    have hx := h x (List.mem_cons_self _ _)
    have hr := ih (fun y hy => h y (List.mem_cons_of_mem _ hy))
    have hq : queueQuantity (x :: rest) = x.quantity + queueQuantity rest := by
      simp [queueQuantity]
    rw [hq, List.length_cons, Nat.succ_mul]
    unfold UINT16_BOUND at hx hr ⊢
    omega

/-! ## No crossing level -/

theorem process_orders_levels_no_cross (cond : Nat → Nat → Bool) (o : Order) (c : Nat)
    (m : OrderMap) (h : ∀ lv ∈ m, cond lv.1 o.price = false) :
    process_orders_levels cond o c m = (o, c, m) := by
  cases m with
  | nil => rfl
  | cons lv rest =>
    obtain ⟨p, l⟩ := lv
    have hp := h (p, l) (List.mem_cons_self _ _)
    simp only [] at hp
    simp [process_orders_levels, hp]

/-! ## The book is never crossed -/

/-- When the walk leaves the incoming order with quantity, no level left on
the ladder satisfies the crossing condition. -/
theorem process_orders_levels_rest_no_cross (cond : Nat → Nat → Bool) (o : Order) (c : Nat)
    (m : OrderMap)
    (H : m.Pairwise (fun a b => cond a.1 o.price = false → cond b.1 o.price = false))
    (hpos : 0 < (process_orders_levels cond o c m).1.quantity) :
    ∀ lv ∈ (process_orders_levels cond o c m).2.2, cond lv.1 o.price = false := by
  induction m generalizing o c with
  | nil => simp [process_orders_levels]
  | cons lv0 rest ih =>
    obtain ⟨p, l⟩ := lv0
    rw [List.pairwise_cons] at H
    obtain ⟨H1, H2⟩ := H
    have hprice : (process_orders_queue o c l).1.price = o.price := by
      rw [process_orders_queue_order]
    simp only [process_orders_levels] at hpos ⊢
    by_cases hc : o.quantity > 0 ∧ cond p o.price = true
    · rw [if_pos hc] at hpos ⊢
      by_cases he : (process_orders_queue o c l).2.2.isEmpty = true
      · rw [if_pos he] at hpos ⊢
        have key := ih (process_orders_queue o c l).1 (process_orders_queue o c l).2.1
          (by rw [hprice]; exact H2) hpos
        rw [hprice] at key
        exact key
      · rw [if_neg he] at hpos
        have hne : (process_orders_queue o c l).2.2 ≠ [] := by simpa using he
        have hz := process_orders_queue_exhausted o c l hne
        simp only [] at hpos
        rw [process_orders_levels_zero _ _ _ rest hz] at hpos
        simp only [] at hpos
        omega
    · rw [if_neg hc] at hpos ⊢
      simp only [] at hpos
      have hpf : cond p o.price = false := by
        by_contra hne
        exact hc ⟨hpos, by simpa using hne⟩
      intro lv hlv
      simp only [List.mem_cons] at hlv
      rcases hlv with rfl | hlv
      · exact hpf
      · exact H1 lv hlv hpf

theorem uncrossed_iff (b : Orderbook) (side : Side) :
    b.Uncrossed ↔
      ∀ lo ∈ ownSide side b, ∀ lp ∈ oppositeSide side b, crosses side lp.1 lo.1 = false := by
  unfold Orderbook.Uncrossed
  cases side with
  | BUY =>
    simp only [ownSide, oppositeSide, crosses, decide_eq_false_iff_not, Nat.not_le]
  | SELL =>
    simp only [ownSide, oppositeSide, crosses, decide_eq_false_iff_not, ge_iff_le, Nat.not_le]
    constructor
    · intro h lo hlo lp hlp
      exact h lp hlp lo hlo
    · intro h lvb hb lvs hs
      exact h lvs hs lvb hb

theorem match_order_uncrossed (b : Orderbook) (o : Order) (hwf : b.WellFormed)
    (hu : b.Uncrossed) : (match_order b o).2.Uncrossed := by
  rw [uncrossed_iff _ o.side] at hu ⊢
  obtain ⟨-, hopp, hown⟩ := match_order_eq b o
  have hmono := opposite_crossing_monotone b o.side o.price hwf
  have hprice : (process_orders o (oppositeSide o.side b) (crosses o.side)).1.price = o.price := by
    unfold process_orders
    rw [process_orders_levels_fields]
  rw [hopp, hown]
  intro lo hlo lp hlp
  have hk := process_orders_levels_keys _ _ _ _ lp hlp
  rw [List.mem_map] at hk
  obtain ⟨lp0, hlp0, e0⟩ := hk
  have hold : ∀ lo0 ∈ ownSide o.side b, crosses o.side lp.1 lo0.1 = false := by
    intro lo0 hlo0
    rw [← e0]
    exact hu lo0 hlo0 lp0 hlp0
  by_cases hq : (process_orders o (oppositeSide o.side b) (crosses o.side)).1.quantity > 0
  · rw [if_pos hq] at hlo
    rcases push_back_at_keys _ _ _ _ lo hlo with h | h
    · rw [h, hprice]
      exact process_orders_levels_rest_no_cross (crosses o.side) o 0 _ hmono hq lp hlp
    · rw [List.mem_map] at h
      obtain ⟨lo0, hlo0, e⟩ := h
      rw [← e]
      exact hold lo0 hlo0
  · rw [if_neg hq] at hlo
    exact hold lo hlo

theorem modify_order_by_id_uncrossed (b : Orderbook) (i q : Nat) (hu : b.Uncrossed) :
    (modify_order_by_id b i q).Uncrossed := by
  have hsub : ∀ (m : OrderMap) (lv : Nat × List Order), lv ∈ (modify_order_in_map i q m).2 →
      ∃ lv0 ∈ m, lv0.1 = lv.1 := by
    intro m lv hlv
    have hk := modify_order_in_map_keys i q m lv hlv
    rw [List.mem_map] at hk
    exact hk
  unfold modify_order_by_id Orderbook.Uncrossed
  simp only []
  split
  · intro lvb hb lvs hs
    obtain ⟨lb0, hb0, eb⟩ := hsub _ lvb hb
    rw [← eb]
    exact hu lb0 hb0 lvs hs
  · intro lvb hb lvs hs
    obtain ⟨lb0, hb0, eb⟩ := hsub _ lvb hb
    obtain ⟨ls0, hs0, es⟩ := hsub _ lvs hs
    rw [← eb, ← es]
    exact hu lb0 hb0 ls0 hs0

theorem foldl_applyOp_uncrossed (ops : List Op) (b : Orderbook) (hwf : b.WellFormed)
    (hu : b.Uncrossed) : (ops.foldl applyOp b).Uncrossed := by
  induction ops generalizing b with
  | nil => exact hu
  | cons op rest ih =>
    simp only [List.foldl_cons]
    cases op with
    | matchOrder incoming =>
      exact ih _ (match_order_wellFormed b incoming hwf) (match_order_uncrossed b incoming hwf hu)
    | modifyOrder order_id new_quantity =>
      exact ih _ (modify_order_by_id_wellFormed b order_id new_quantity hwf)
        (modify_order_by_id_uncrossed b order_id new_quantity hu)

/-! ## What the match leaves in place -/

/-- Every level the walk leaves on the ladder is a level of the old ladder
whose queue is the tail of the old queue, each survivor being the old order
with a quantity that is not larger. -/
theorem process_orders_levels_residue (cond : Nat → Nat → Bool) (o : Order) (c : Nat)
    (m : OrderMap) :
    ∀ lv ∈ (process_orders_levels cond o c m).2.2, ∃ l, (lv.1, l) ∈ m ∧
      List.Forall₂ sameOrderReduced (l.drop (l.length - lv.2.length)) lv.2 := by
  induction m generalizing o c with
  | nil => simp [process_orders_levels]
  | cons lv0 rest ih =>
    obtain ⟨p, l⟩ := lv0
    have hrest : ∀ (o1 : Order) (c1 : Nat),
        ∀ lv ∈ (process_orders_levels cond o1 c1 rest).2.2, ∃ l1, (lv.1, l1) ∈ (p, l) :: rest ∧
          List.Forall₂ sameOrderReduced (l1.drop (l1.length - lv.2.length)) lv.2 := by
      intro o1 c1 lv hlv
      obtain ⟨l1, hl1, hf⟩ := ih o1 c1 lv hlv
      exact ⟨l1, List.mem_cons_of_mem _ hl1, hf⟩
    simp only [process_orders_levels]
    split
    · split
      · exact hrest _ _
      · intro lv hlv
        simp only [List.mem_cons] at hlv
        rcases hlv with rfl | hlv
        · exact ⟨l, List.mem_cons_self _ _, process_orders_queue_residue o c l⟩
        · exact hrest _ _ lv hlv
    · intro lv hlv
      refine ⟨lv.2, hlv, ?_⟩
      rw [Nat.sub_self, List.drop_zero]
      exact List.forall₂_same.mpr (fun x _ => sameOrderReduced_refl x)

/-- A level whose price does not satisfy the condition is left as it was. -/
theorem process_orders_levels_untouched (comp cond : Nat → Nat → Bool)
    (hirr : ∀ a, comp a a = false) (o : Order) (c : Nat) (m : OrderMap)
    (hs : OrderMap.Sorted comp m) (p : Nat) (l : List Order) (hmem : (p, l) ∈ m)
    (hp : cond p o.price = false) :
    map_find p (process_orders_levels cond o c m).2.2 = some l := by
  induction m generalizing o c with
  | nil => cases hmem
  | cons lv0 rest ih =>
    obtain ⟨k, lk⟩ := lv0
    have hs2 : OrderMap.Sorted comp rest := by
      unfold OrderMap.Sorted at hs ⊢
      rw [List.pairwise_cons] at hs
      exact hs.2
    have hprice : (process_orders_queue o c lk).1.price = o.price := by
      rw [process_orders_queue_order]
    simp only [process_orders_levels]
    by_cases hc : o.quantity > 0 ∧ cond k o.price = true
    · rw [if_pos hc]
      have hk : k ≠ p := by
        intro e
        rw [e, hp] at hc
        exact Bool.false_ne_true hc.2
      have hmem2 : (p, l) ∈ rest := by
        simp only [List.mem_cons, Prod.mk.injEq] at hmem
        rcases hmem with ⟨e, -⟩ | h
        · exact absurd e.symm hk
        · exact h
      have key := ih (process_orders_queue o c lk).1 (process_orders_queue o c lk).2.1 hs2 hmem2
        (by rw [hprice]; exact hp)
      split
      · exact key
      · simp only [map_find]
        rw [if_neg hk]
        exact key
    · rw [if_neg hc]
      exact map_find_of_mem comp hirr _ hs p l hmem

/-- Resting an order leaves every order that already rested on the ladder in
its level, at its position. -/
theorem push_back_at_prefix (side : Side) (price : Nat) (o : Order) (m : OrderMap)
    (hs : OrderMap.Sorted (ownComparator side) m) :
    ∀ lv ∈ m, ∃ l, map_find lv.1 (push_back_at (ownComparator side) price o m) = some l ∧
      lv.2 <+: l := by
  intro lv hlv
  have hfind := map_find_of_mem (ownComparator side) (ownComparator_irrefl side) m hs
    lv.1 lv.2 hlv
  rw [push_back_at_find side price o m hs lv.1]
  by_cases hp : lv.1 = price
  · rw [if_pos hp]
    refine ⟨queueAt price m ++ [o], rfl, ?_⟩
    unfold queueAt
    rw [← hp, hfind]
    exact List.prefix_append _ _
  · rw [if_neg hp]
    exact ⟨lv.2, hfind, List.prefix_refl _⟩

/-! ## At most one partial fill -/

theorem process_orders_queue_partial (o : Order) (c : Nat) (l : List Order) :
    ∃ gone kept, l = gone ++ kept ∧
      List.Forall₂ sameOrderReduced kept (process_orders_queue o c l).2.2 ∧
      countReduced kept (process_orders_queue o c l).2.2 ≤ 1 ∧
      (0 < countReduced kept (process_orders_queue o c l).2.2 →
        (process_orders_queue o c l).1.quantity = 0) := by
  induction l generalizing o c with
  | nil =>
    exact ⟨[], [], rfl, by simp [process_orders_queue], by simp [process_orders_queue, countReduced],
      by simp [process_orders_queue, countReduced]⟩
  | cons r rest ih =>
    simp only [process_orders_queue]
    by_cases hq : o.quantity > 0
    · rw [if_pos hq]
      by_cases h0 : r.quantity - min o.quantity r.quantity = 0
      · simp only [h0, if_true]
        obtain ⟨gone, kept, hl, hf, hle, hz⟩ := ih
          { o with quantity := o.quantity - min o.quantity r.quantity } ((c + 1) % UINT32_BOUND)
        exact ⟨r :: gone, kept, by rw [hl]; rfl, hf, hle, hz⟩
      · simp only [h0, if_false]
        have hz : o.quantity - min o.quantity r.quantity = 0 := by omega
        rw [process_orders_queue_zero
          { o with quantity := o.quantity - min o.quantity r.quantity } _ rest hz]
        have hcr : countReduced (r :: rest)
            ({ r with quantity := r.quantity - min o.quantity r.quantity } :: rest) = 1 := by
          simp only [countReduced, countReduced_self]
          rw [if_pos (by omega)]
        refine ⟨[], r :: rest, rfl, List.Forall₂.cons ?_ ?_, ?_, ?_⟩
        · exact ⟨rfl, rfl, rfl, Nat.sub_le _ _⟩
        · exact List.forall₂_same.mpr (fun x _ => sameOrderReduced_refl x)
        · simp only []
          rw [hcr]
        · intro _
          exact hz
    · rw [if_neg hq]
      refine ⟨[], r :: rest, rfl,
        List.forall₂_same.mpr (fun x _ => sameOrderReduced_refl x), ?_, ?_⟩
      · simp only [countReduced_self]
        omega
      · intro h
        simp only [countReduced_self] at h
        omega

theorem process_orders_levels_partial (cond : Nat → Nat → Bool) (o : Order) (c : Nat)
    (m : OrderMap) :
    ∃ gone kept, allOrders m = gone ++ kept ∧
      List.Forall₂ sameOrderReduced kept (allOrders (process_orders_levels cond o c m).2.2) ∧
      countReduced kept (allOrders (process_orders_levels cond o c m).2.2) ≤ 1 ∧
      (0 < countReduced kept (allOrders (process_orders_levels cond o c m).2.2) →
        (process_orders_levels cond o c m).1.quantity = 0) := by
  induction m generalizing o c with
  | nil =>
    exact ⟨[], [], rfl, by simp [process_orders_levels, allOrders],
      by simp [process_orders_levels, allOrders, countReduced],
      by simp [process_orders_levels, allOrders, countReduced]⟩
  | cons lv rest ih =>
    obtain ⟨p, l⟩ := lv
    simp only [process_orders_levels]
    by_cases hen : o.quantity > 0 ∧ cond p o.price = true
    · rw [if_pos hen]
      obtain ⟨gq, kq, hl, hfq, hleq, hzq⟩ := process_orders_queue_partial o c l
      by_cases he : (process_orders_queue o c l).2.2.isEmpty = true
      · rw [if_pos he]
        have hnil : (process_orders_queue o c l).2.2 = [] := by simpa using he
        rw [hnil] at hfq
        have hkq : kq = [] := by cases hfq; rfl
        subst hkq
        obtain ⟨g2, k2, hl2, hf2, hle2, hz2⟩ :=
          ih (process_orders_queue o c l).1 (process_orders_queue o c l).2.1
        refine ⟨gq ++ g2, k2, ?_, hf2, hle2, hz2⟩
        simp only [allOrders]
        rw [hl, hl2]
        simp
      · rw [if_neg he]
        have hne : (process_orders_queue o c l).2.2 ≠ [] := by simpa using he
        have hz := process_orders_queue_exhausted o c l hne
        rw [process_orders_levels_zero _ _ _ rest hz]
        simp only [allOrders]
        have hcr : countReduced (kq ++ allOrders rest)
            ((process_orders_queue o c l).2.2 ++ allOrders rest) =
            countReduced kq (process_orders_queue o c l).2.2 := by
          rw [countReduced_append _ _ _ _ hfq.length_eq, countReduced_self]
          rfl
        refine ⟨gq, kq ++ allOrders rest, ?_, forall₂_append_same _ _ _ hfq, ?_, ?_⟩
        · rw [hl]; simp
        · rw [hcr]; exact hleq
        · intro _
          exact hz
    · rw [if_neg hen]
      refine ⟨[], allOrders ((p, l) :: rest), rfl,
        List.forall₂_same.mpr (fun x _ => sameOrderReduced_refl x), ?_, ?_⟩
      · simp only [countReduced_self]
        omega
      · intro h
        simp only [countReduced_self] at h
        omega

/-! ## Width of the volume accumulator -/

theorem queueQuantity_replicate (n : Nat) (x : Order) :
    queueQuantity (List.replicate n x) = n * x.quantity := by
  induction n with
  | zero => simp [queueQuantity]
  | succ k ih =>
    have hq : queueQuantity (x :: List.replicate k x) =
        x.quantity + queueQuantity (List.replicate k x) := by
      simp [queueQuantity]
    rw [List.replicate_succ, hq, ih, Nat.succ_mul]
    omega

/-- The 32-bit accumulation wraps once a level holds more than `2 ^ 32 - 1`
units: with 65538 orders of 65535 units the total is 4295032830 and the
function returns 65534. -/
theorem get_volume_at_level_wraps :
    queueQuantity (queueAt 100 (ownSide Side.BUY bookWideLevel)) = 4295032830 ∧
    get_volume_at_level bookWideLevel Side.BUY 100 = 65534 := by
  have hq : queueAt 100 (ownSide Side.BUY bookWideLevel) =
      List.replicate 65538 { id := 1, price := 100, quantity := 65535, side := Side.BUY } := rfl
  rw [get_volume_at_level_eq, hq, queueQuantity_replicate]
  unfold UINT32_BOUND
  constructor <;> norm_num

/-! ## Main theorems -/

/-- C1 (quantity conservation of `match_order`).  For every book (its
ladders being `std::map`s, i.e. key-sorted) and every incoming order, with
`filled = min(incoming quantity, total quantity resting on the opposite
ladder at prices satisfying the crossing condition)`: the total quantity on
the opposite ladder decreases by exactly `filled`, the incoming order's
quantity decreases by exactly `filled` in the walk, and the remainder
`incoming quantity - filled` is exactly what is added to the own ladder. -/
theorem match_order_quantity_conservation (b : Orderbook) (o : Order) (hwf : b.WellFormed) :
    totalQuantity (oppositeSide o.side (match_order b o).2) +
        min o.quantity (crossingQuantity (crosses o.side) o.price (oppositeSide o.side b)) =
      totalQuantity (oppositeSide o.side b) ∧
    (process_orders o (oppositeSide o.side b) (crosses o.side)).1.quantity +
        min o.quantity (crossingQuantity (crosses o.side) o.price (oppositeSide o.side b)) =
      o.quantity ∧
    totalQuantity (ownSide o.side (match_order b o).2) +
        min o.quantity (crossingQuantity (crosses o.side) o.price (oppositeSide o.side b)) =
      totalQuantity (ownSide o.side b) + o.quantity := by
  have hmono := opposite_crossing_monotone b o.side o.price hwf
  obtain ⟨-, hopp, hown⟩ := match_order_eq b o
  have h1 := process_orders_levels_total (crosses o.side) o 0 (oppositeSide o.side b) hmono
  have h2 := process_orders_levels_order (crosses o.side) o 0 (oppositeSide o.side b) hmono
  have h2q : (process_orders o (oppositeSide o.side b) (crosses o.side)).1.quantity =
      o.quantity - crossingQuantity (crosses o.side) o.price (oppositeSide o.side b) := by
    unfold process_orders; rw [h2]
  refine ⟨?_, ?_, ?_⟩
  · rw [hopp]; exact h1
  · rw [h2q]; omega
  · rw [hown]
    split
    · rw [totalQuantity_push_back_at, h2q]; omega
    · next hz => rw [h2q] at hz; omega

/-- Witness of C1: Test 5 of tests.cpp (BUY 8 @ 100 against SELL 4 @ 95 and
SELL 6 @ 100). -/
theorem match_order_quantity_conservation_witness :
    bookTest5.WellFormed ∧
    (totalQuantity (oppositeSide orderTest5.side (match_order bookTest5 orderTest5).2) +
        min orderTest5.quantity
          (crossingQuantity (crosses orderTest5.side) orderTest5.price
            (oppositeSide orderTest5.side bookTest5)) =
      totalQuantity (oppositeSide orderTest5.side bookTest5) ∧
    (process_orders orderTest5 (oppositeSide orderTest5.side bookTest5)
        (crosses orderTest5.side)).1.quantity +
        min orderTest5.quantity
          (crossingQuantity (crosses orderTest5.side) orderTest5.price
            (oppositeSide orderTest5.side bookTest5)) =
      orderTest5.quantity ∧
    totalQuantity (ownSide orderTest5.side (match_order bookTest5 orderTest5).2) +
        min orderTest5.quantity
          (crossingQuantity (crosses orderTest5.side) orderTest5.price
            (oppositeSide orderTest5.side bookTest5)) =
      totalQuantity (ownSide orderTest5.side bookTest5) + orderTest5.quantity) :=
  ⟨by decide, match_order_quantity_conservation bookTest5 orderTest5 (by decide)⟩

/-- C2 (no phantom levels).  In every book reached from the empty book by
a finite sequence of `match_order` and `modify_order_by_id` calls, with any
arguments, no level of either ladder has an empty queue and no resting order
of either ladder has quantity 0. -/
theorem no_phantom_levels (ops : List Op) :
    (∀ lv ∈ (runOps ops).buyOrders, lv.2 ≠ []) ∧
    (∀ lv ∈ (runOps ops).sellOrders, lv.2 ≠ []) ∧
    (∀ lv ∈ (runOps ops).buyOrders, ∀ o ∈ lv.2, o.quantity ≠ 0) ∧
    (∀ lv ∈ (runOps ops).sellOrders, ∀ o ∈ lv.2, o.quantity ≠ 0) := by
  have h := foldl_applyOp_clean ops create_orderbook
    ⟨by simp [create_orderbook, OrderMap.Clean], by simp [create_orderbook, OrderMap.Clean]⟩
  exact ⟨fun lv hlv => (h.1 lv hlv).1, fun lv hlv => (h.2 lv hlv).1,
    fun lv hlv => (h.1 lv hlv).2, fun lv hlv => (h.2 lv hlv).2⟩

/-- C3 (price priority of `match_order`).  For every book (key-sorted
ladders) and incoming order: if the queue of the opposite-side level at price
`p` is not after the match what it was before (an order of it was reduced or
removed), then after the match the opposite ladder has no level at a price
strictly better than `p` (lower for a BUY, higher for a SELL), so every order
that rested at a strictly better level is gone, and the whole quantity that
rested at strictly better levels has left the opposite ladder. -/
theorem match_order_price_priority (b : Orderbook) (o : Order) (hwf : b.WellFormed)
    (p : Nat) (l : List Order) (hmem : (p, l) ∈ oppositeSide o.side b)
    (hchg : map_find p (oppositeSide o.side (match_order b o).2) ≠ some l) :
    (∀ lv ∈ oppositeSide o.side (match_order b o).2, strictlyBetter o.side lv.1 p = false) ∧
    totalQuantity ((oppositeSide o.side b).filter (fun lv => strictlyBetter o.side lv.1 p)) +
        totalQuantity (oppositeSide o.side (match_order b o).2) ≤
      totalQuantity (oppositeSide o.side b) := by
  obtain ⟨-, hopp, -⟩ := match_order_eq b o
  rw [hopp] at hchg ⊢
  exact process_orders_levels_priority (strictlyBetter o.side) (crosses o.side) o 0
    (oppositeSide o.side b) (strictlyBetter_irrefl o.side) (strictlyBetter_asymm o.side)
    (opposite_sorted b o.side hwf) p l hmem hchg

/-- Witness of C3: Test 8 of tests.cpp (SELL 7 @ 90 against BUY 5 @ 100 and
BUY 5 @ 95); the level at 95 is reduced, the level at 100 is gone. -/
theorem match_order_price_priority_witness :
    bookTest8.WellFormed ∧
    (95, [{ id := 28, price := 95, quantity := 5, side := Side.BUY }]) ∈
      oppositeSide orderTest8.side bookTest8 ∧
    map_find 95 (oppositeSide orderTest8.side (match_order bookTest8 orderTest8).2) ≠
      some [{ id := 28, price := 95, quantity := 5, side := Side.BUY }] ∧
    ((∀ lv ∈ oppositeSide orderTest8.side (match_order bookTest8 orderTest8).2,
        strictlyBetter orderTest8.side lv.1 95 = false) ∧
      totalQuantity ((oppositeSide orderTest8.side bookTest8).filter
          (fun lv => strictlyBetter orderTest8.side lv.1 95)) +
          totalQuantity (oppositeSide orderTest8.side (match_order bookTest8 orderTest8).2) ≤
        totalQuantity (oppositeSide orderTest8.side bookTest8)) :=
  ⟨by decide, by decide, by decide,
    match_order_price_priority bookTest8 orderTest8 (by decide) 95
      [{ id := 28, price := 95, quantity := 5, side := Side.BUY }] (by decide) (by decide)⟩

/-- C4 (time priority of `match_order`).  For every book (key-sorted
ladders), incoming order and opposite-side level at price `p` whose queue is
`pre ++ a :: mid ++ x :: post` (so `a` was inserted before `x`): if after the
match the queue at `p` no longer ends with `x :: post` as it was (`x` was
reduced or removed), then the queue at `p` has at most `post.length + 1`
orders and they are, in order, the last orders of the old queue with
quantities not larger, so `a` and every order ahead of `x` is no longer in
it; and the whole quantity of `a` and of the orders ahead of `x` has left the
opposite ladder. -/
theorem match_order_time_priority (b : Orderbook) (o : Order) (hwf : b.WellFormed)
    (p : Nat) (pre mid post : List Order) (a x : Order)
    (hmem : (p, pre ++ a :: mid ++ x :: post) ∈ oppositeSide o.side b)
    (hchg : ¬ (x :: post) <:+ queueAt p (oppositeSide o.side (match_order b o).2)) :
    (queueAt p (oppositeSide o.side (match_order b o).2)).length ≤ post.length + 1 ∧
    List.Forall₂ sameOrderReduced
      ((pre ++ a :: mid ++ x :: post).drop ((pre ++ a :: mid ++ x :: post).length -
        (queueAt p (oppositeSide o.side (match_order b o).2)).length))
      (queueAt p (oppositeSide o.side (match_order b o).2)) ∧
    queueQuantity (pre ++ a :: mid) + totalQuantity (oppositeSide o.side (match_order b o).2) ≤
      totalQuantity (oppositeSide o.side b) := by
  obtain ⟨-, hopp, -⟩ := match_order_eq b o
  rw [hopp] at hchg ⊢
  exact process_orders_levels_fifo (strictlyBetter o.side) (crosses o.side) o 0
    (oppositeSide o.side b) (strictlyBetter_irrefl o.side) (opposite_sorted b o.side hwf)
    p (pre ++ a :: mid) x post hmem hchg

/-- Witness of C4: Test 10 of tests.cpp (BUY 8 @ 100 against SELL 4 and
SELL 6 resting at 100, in that order); the later order is reduced, the
earlier one is gone. -/
theorem match_order_time_priority_witness :
    bookTest10.WellFormed ∧
    (100, [] ++ ({ id := 32, price := 100, quantity := 4, side := Side.SELL } : Order) :: [] ++
        ({ id := 33, price := 100, quantity := 6, side := Side.SELL } : Order) :: []) ∈
      oppositeSide orderTest10.side bookTest10 ∧
    ¬ (({ id := 33, price := 100, quantity := 6, side := Side.SELL } : Order) :: []) <:+
      queueAt 100 (oppositeSide orderTest10.side (match_order bookTest10 orderTest10).2) ∧
    ((queueAt 100 (oppositeSide orderTest10.side
        (match_order bookTest10 orderTest10).2)).length ≤ ([] : List Order).length + 1 ∧
    List.Forall₂ sameOrderReduced
      (([] ++ ({ id := 32, price := 100, quantity := 4, side := Side.SELL } : Order) :: [] ++
        ({ id := 33, price := 100, quantity := 6, side := Side.SELL } : Order) :: []).drop
        (([] ++ ({ id := 32, price := 100, quantity := 4, side := Side.SELL } : Order) :: [] ++
          ({ id := 33, price := 100, quantity := 6, side := Side.SELL } : Order) :: []).length -
        (queueAt 100 (oppositeSide orderTest10.side
          (match_order bookTest10 orderTest10).2)).length))
      (queueAt 100 (oppositeSide orderTest10.side (match_order bookTest10 orderTest10).2)) ∧
    queueQuantity ([] ++ ({ id := 32, price := 100, quantity := 4, side := Side.SELL } : Order)
        :: []) +
        totalQuantity (oppositeSide orderTest10.side (match_order bookTest10 orderTest10).2) ≤
      totalQuantity (oppositeSide orderTest10.side bookTest10)) :=
  ⟨by decide, by decide, by decide,
    match_order_time_priority bookTest10 orderTest10 (by decide) 100 [] [] []
      { id := 32, price := 100, quantity := 4, side := Side.SELL }
      { id := 33, price := 100, quantity := 6, side := Side.SELL } (by decide) (by decide)⟩

/-- C5 (meaning of the fill count).  For every book whose opposite-side
resting orders all have quantity > 0 and every incoming order (its quantity a
`uint16_t`): the orders left on the opposite ladder are, in priority order,
the last orders of the old ladder with quantities not larger, and the value
returned by `match_order` is the number of orders that were removed plus the
number of surviving orders whose quantity is smaller than before. -/
theorem match_order_fill_count (b : Orderbook) (o : Order)
    (hpos : ∀ lv ∈ oppositeSide o.side b, ∀ r ∈ lv.2, 0 < r.quantity)
    (hq : o.quantity < UINT16_BOUND) :
    (allOrders (oppositeSide o.side (match_order b o).2)).length ≤
      (allOrders (oppositeSide o.side b)).length ∧
    List.Forall₂ sameOrderReduced
      ((allOrders (oppositeSide o.side b)).drop
        ((allOrders (oppositeSide o.side b)).length -
          (allOrders (oppositeSide o.side (match_order b o).2)).length))
      (allOrders (oppositeSide o.side (match_order b o).2)) ∧
    (match_order b o).1 =
      ((allOrders (oppositeSide o.side b)).length -
          (allOrders (oppositeSide o.side (match_order b o).2)).length) +
        countReduced
          ((allOrders (oppositeSide o.side b)).drop
            ((allOrders (oppositeSide o.side b)).length -
              (allOrders (oppositeSide o.side (match_order b o).2)).length))
          (allOrders (oppositeSide o.side (match_order b o).2)) := by
  obtain ⟨hcnt, hopp, -⟩ := match_order_eq b o
  rw [hcnt, hopp]
  unfold process_orders
  obtain ⟨gone, kept, hl, hf, hc, hp⟩ := process_orders_levels_count (crosses o.side) o 0
    (oppositeSide o.side b) (by unfold UINT32_BOUND; omega)
  obtain ⟨h1, h2⟩ := residue_drop _ _ gone kept hl hf
  have hbound := hp hpos
  rw [h2, h1]
  refine ⟨?_, hf, ?_⟩
  · rw [hl, List.length_append, hf.length_eq]; omega
  · rw [hc]
    unfold UINT16_BOUND at hq
    unfold UINT32_BOUND
    omega

/-- Witness of C5: Test 2 of tests.cpp (BUY 8 @ 100 against SELL 5 @ 90 and
SELL 5 @ 95): one order removed, one reduced, count 2. -/
theorem match_order_fill_count_witness :
    (∀ lv ∈ oppositeSide orderTest2.side bookTest2, ∀ r ∈ lv.2, 0 < r.quantity) ∧
    orderTest2.quantity < UINT16_BOUND ∧
    ((allOrders (oppositeSide orderTest2.side (match_order bookTest2 orderTest2).2)).length ≤
      (allOrders (oppositeSide orderTest2.side bookTest2)).length ∧
    List.Forall₂ sameOrderReduced
      ((allOrders (oppositeSide orderTest2.side bookTest2)).drop
        ((allOrders (oppositeSide orderTest2.side bookTest2)).length -
          (allOrders (oppositeSide orderTest2.side
            (match_order bookTest2 orderTest2).2)).length))
      (allOrders (oppositeSide orderTest2.side (match_order bookTest2 orderTest2).2)) ∧
    (match_order bookTest2 orderTest2).1 =
      ((allOrders (oppositeSide orderTest2.side bookTest2)).length -
          (allOrders (oppositeSide orderTest2.side
            (match_order bookTest2 orderTest2).2)).length) +
        countReduced
          ((allOrders (oppositeSide orderTest2.side bookTest2)).drop
            ((allOrders (oppositeSide orderTest2.side bookTest2)).length -
              (allOrders (oppositeSide orderTest2.side
                (match_order bookTest2 orderTest2).2)).length))
          (allOrders (oppositeSide orderTest2.side (match_order bookTest2 orderTest2).2))) :=
  ⟨by decide, by decide,
    match_order_fill_count bookTest2 orderTest2 (by decide) (by decide)⟩

/-- C6 (resting of the remainder).  For every book (key-sorted ladders) and
incoming order, with `rem` the quantity the incoming order has left after
the walk: the own-side ladder is changed by `match_order` if and only if
`rem > 0`; in that case it is still key-sorted, the queue at the limit price
is the old queue at that price (empty if there was no such level) followed by
one order with the incoming id, price and side and quantity `rem`, and the
queue at every other price is as before. -/
theorem match_order_rests_remainder (b : Orderbook) (o : Order) (hwf : b.WellFormed) :
    (ownSide o.side (match_order b o).2 ≠ ownSide o.side b ↔
      0 < (process_orders o (oppositeSide o.side b) (crosses o.side)).1.quantity) ∧
    (0 < (process_orders o (oppositeSide o.side b) (crosses o.side)).1.quantity →
      OrderMap.Sorted (ownComparator o.side) (ownSide o.side (match_order b o).2) ∧
      ∀ p, map_find p (ownSide o.side (match_order b o).2) =
        if p = o.price then
          some (queueAt o.price (ownSide o.side b) ++
            [{ id := o.id, price := o.price,
               quantity := (process_orders o (oppositeSide o.side b) (crosses o.side)).1.quantity,
               side := o.side }])
        else map_find p (ownSide o.side b)) := by
  obtain ⟨-, -, hown⟩ := match_order_eq b o
  have hs := own_sorted b o.side hwf
  have hf : (process_orders o (oppositeSide o.side b) (crosses o.side)).1 =
      { o with quantity :=
        (process_orders o (oppositeSide o.side b) (crosses o.side)).1.quantity } :=
    process_orders_levels_fields _ _ _ _
  have hprice : (process_orders o (oppositeSide o.side b) (crosses o.side)).1.price = o.price := by
    rw [hf]
  rw [hown]
  constructor
  · constructor
    · intro hne
      by_contra hz
      rw [if_neg hz] at hne
      exact hne rfl
    · intro hpos
      rw [if_pos hpos]
      intro e
      have ht := totalQuantity_push_back_at (ownComparator o.side)
        (process_orders o (oppositeSide o.side b) (crosses o.side)).1.price
        (process_orders o (oppositeSide o.side b) (crosses o.side)).1 (ownSide o.side b)
      rw [e] at ht
      omega
  · intro hpos
    rw [if_pos hpos, hprice]
    refine ⟨push_back_at_sorted _ _ _ _ hs, ?_⟩
    intro p
    rw [push_back_at_find _ _ _ _ hs]
    conv_lhs => rw [hf]

/-- Witness of C6: Test 27 of tests.cpp (SELL 15 @ 100 arriving when SELL 20
rests at 100 and no buy rests): the order joins the queue at 100 behind the
resting one. -/
theorem match_order_rests_remainder_witness :
    bookTest27.WellFormed ∧
    ((ownSide orderTest27.side (match_order bookTest27 orderTest27).2 ≠
        ownSide orderTest27.side bookTest27 ↔
      0 < (process_orders orderTest27 (oppositeSide orderTest27.side bookTest27)
        (crosses orderTest27.side)).1.quantity) ∧
    (0 < (process_orders orderTest27 (oppositeSide orderTest27.side bookTest27)
        (crosses orderTest27.side)).1.quantity →
      OrderMap.Sorted (ownComparator orderTest27.side)
        (ownSide orderTest27.side (match_order bookTest27 orderTest27).2) ∧
      ∀ p, map_find p (ownSide orderTest27.side (match_order bookTest27 orderTest27).2) =
        if p = orderTest27.price then
          some (queueAt orderTest27.price (ownSide orderTest27.side bookTest27) ++
            [{ id := orderTest27.id, price := orderTest27.price,
               quantity := (process_orders orderTest27
                 (oppositeSide orderTest27.side bookTest27)
                 (crosses orderTest27.side)).1.quantity,
               side := orderTest27.side }])
        else map_find p (ownSide orderTest27.side bookTest27))) :=
  ⟨by decide, match_order_rests_remainder bookTest27 orderTest27 (by decide)⟩

/-- C7 (lookup fails exactly on absence).  For every book and id:
`lookup_order_by_id` fails with the not-found error if and only if no order
with that id rests in either ladder, which holds if and only if
`order_exists` returns false; and when it succeeds, the order it returns
rests in the book and has that id. -/
theorem lookup_fails_iff_absent (b : Orderbook) (i : Nat) :
    (lookup_order_by_id b i = Except.error EngineError.orderNotFound ↔
      ¬ ∃ x, b.Rests x ∧ x.id = i) ∧
    ((¬ ∃ x, b.Rests x ∧ x.id = i) ↔ order_exists b i = false) ∧
    (∀ x, lookup_order_by_id b i = Except.ok x → b.Rests x ∧ x.id = i) := by
  have habs : (¬ ∃ x, b.Rests x ∧ x.id = i) ↔
      (lookup_order_in_map i b.buyOrders = none ∧
        lookup_order_in_map i b.sellOrders = none) := by
    rw [lookup_order_in_map_eq_none, lookup_order_in_map_eq_none,
      fresh_iff_not_rests, fresh_iff_not_rests]
    constructor
    · intro h
      exact ⟨fun ⟨x, hx, hid⟩ => h ⟨x, Or.inl hx, hid⟩,
        fun ⟨x, hx, hid⟩ => h ⟨x, Or.inr hx, hid⟩⟩
    · rintro ⟨h1, h2⟩ ⟨x, hx | hx, hid⟩
      · exact h1 ⟨x, hx, hid⟩
      · exact h2 ⟨x, hx, hid⟩
  refine ⟨?_, ?_, ?_⟩
  · rw [habs]
    unfold lookup_order_by_id
    cases hb : lookup_order_in_map i b.buyOrders with
    | none =>
      cases hs : lookup_order_in_map i b.sellOrders with
      | none => simp
      | some y => simp
    | some y => simp
  · rw [habs]
    unfold order_exists
    cases hb : lookup_order_in_map i b.buyOrders with
    | none =>
      cases hs : lookup_order_in_map i b.sellOrders with
      | none => simp
      | some y => simp
    | some y => simp
  · intro x hx
    unfold lookup_order_by_id at hx
    cases hb : lookup_order_in_map i b.buyOrders with
    | none =>
      rw [hb] at hx
      cases hs : lookup_order_in_map i b.sellOrders with
      | none =>
        rw [hs] at hx
        cases hx
      | some y =>
        rw [hs] at hx
        simp only [Except.ok.injEq] at hx
        subst hx
        obtain ⟨hr, hid⟩ := lookup_order_in_map_some i _ y hs
        exact ⟨Or.inr hr, hid⟩
    | some y =>
      rw [hb] at hx
      simp only [Except.ok.injEq] at hx
      subst hx
      obtain ⟨hr, hid⟩ := lookup_order_in_map_some i _ y hb
      exact ⟨Or.inl hr, hid⟩

/-- C8 (lookup after match returns the remainder).  For every book
(key-sorted ladders) in which no order has the id of the incoming order `o`,
with `T` the total quantity resting on the opposite ladder at prices that
satisfy the crossing condition: if `o.quantity > T` then after
`match_order` the id exists and `lookup_order_by_id` returns the order with
`o`'s id, price and side and quantity `o.quantity - T`; otherwise the id does
not exist after the match. -/
theorem lookup_after_match (b : Orderbook) (o : Order) (hwf : b.WellFormed)
    (hfresh : ∀ x, b.Rests x → x.id ≠ o.id) :
    (crossingQuantity (crosses o.side) o.price (oppositeSide o.side b) < o.quantity →
      order_exists (match_order b o).2 o.id = true ∧
      lookup_order_by_id (match_order b o).2 o.id =
        Except.ok { id := o.id, price := o.price,
                    quantity := o.quantity -
                      crossingQuantity (crosses o.side) o.price (oppositeSide o.side b),
                    side := o.side }) ∧
    (o.quantity ≤ crossingQuantity (crosses o.side) o.price (oppositeSide o.side b) →
      order_exists (match_order b o).2 o.id = false) := by
  have hmono := opposite_crossing_monotone b o.side o.price hwf
  obtain ⟨-, hopp, hown⟩ := match_order_eq b o
  have hord : (process_orders o (oppositeSide o.side b) (crosses o.side)).1 =
      { o with quantity := o.quantity -
        crossingQuantity (crosses o.side) o.price (oppositeSide o.side b) } :=
    process_orders_levels_order (crosses o.side) o 0 (oppositeSide o.side b) hmono
  have hfo : OrderMap.Fresh (oppositeSide o.side b) o.id :=
    fun lv hlv x hx => hfresh x (rests_of_mem_opposite b o.side lv x hlv hx)
  have hfw : OrderMap.Fresh (ownSide o.side b) o.id :=
    fun lv hlv x hx => hfresh x (rests_of_mem_own b o.side lv x hlv hx)
  have hfo2 : OrderMap.Fresh (oppositeSide o.side (match_order b o).2) o.id := by
    rw [hopp]
    exact process_orders_levels_fresh _ _ _ _ _ hfo
  obtain ⟨hl, he⟩ := lookup_by_own_side (match_order b o).2 o.side o.id hfo2
  rw [hl, he, hown, hord]
  simp only []
  constructor
  · intro hlt
    rw [if_pos (by omega)]
    have := lookup_push_back_at (ownComparator o.side) o.price
      { o with quantity := o.quantity -
        crossingQuantity (crosses o.side) o.price (oppositeSide o.side b) }
      (ownSide o.side b) hfw
    simp only [] at this
    rw [this]
    exact ⟨rfl, rfl⟩
  · intro hle
    rw [if_neg (by omega)]
    rw [(lookup_order_in_map_eq_none o.id _).mpr hfw]
    rfl

/-- Witness of C8: Test 3 of tests.cpp (SELL 7 @ 90, id 8, against BUY 6 @
100): the remainder 1 rests and is what the lookup returns. -/
theorem lookup_after_match_witness :
    bookTest3.WellFormed ∧ (∀ x, bookTest3.Rests x → x.id ≠ orderTest3.id) ∧
    ((crossingQuantity (crosses orderTest3.side) orderTest3.price
        (oppositeSide orderTest3.side bookTest3) < orderTest3.quantity →
      order_exists (match_order bookTest3 orderTest3).2 orderTest3.id = true ∧
      lookup_order_by_id (match_order bookTest3 orderTest3).2 orderTest3.id =
        Except.ok { id := orderTest3.id, price := orderTest3.price,
                    quantity := orderTest3.quantity -
                      crossingQuantity (crosses orderTest3.side) orderTest3.price
                        (oppositeSide orderTest3.side bookTest3),
                    side := orderTest3.side }) ∧
    (orderTest3.quantity ≤ crossingQuantity (crosses orderTest3.side) orderTest3.price
        (oppositeSide orderTest3.side bookTest3) →
      order_exists (match_order bookTest3 orderTest3).2 orderTest3.id = false)) :=
  ⟨by decide,
    by
      intro x hx
      rcases hx with ⟨lv, hlv, hx⟩ | ⟨lv, hlv, hx⟩
      · simp only [bookTest3, List.mem_singleton] at hlv
        subst hlv
        simp only [List.mem_singleton] at hx
        subst hx
        decide
      · simp [bookTest3] at hlv,
    lookup_after_match bookTest3 orderTest3 (by decide)
      (by
        intro x hx
        rcases hx with ⟨lv, hlv, hx⟩ | ⟨lv, hlv, hx⟩
        · simp only [bookTest3, List.mem_singleton] at hlv
          subst hlv
          simp only [List.mem_singleton] at hx
          subst hx
          decide
        · simp [bookTest3] at hlv)⟩

/-- C9 as stated fails: in a key-sorted book with a level whose queue is
empty in front of the order, `modify_order_by_id` with a non-zero quantity
also erases that level, so the ladder does not keep the same price levels. -/
theorem modify_order_by_id_in_place_counterexample :
    bookPhantom.WellFormed ∧
    (∃ x, bookPhantom.Rests x ∧ x.id = 1) ∧ 0 < 7 ∧
    (modify_order_by_id bookPhantom 1 7).buyOrders =
      [(99, [{ id := 1, price := 99, quantity := 7, side := Side.BUY }])] ∧
    (modify_order_by_id bookPhantom 1 7).buyOrders.map Prod.fst ≠
      bookPhantom.buyOrders.map Prod.fst :=
  ⟨by decide,
    ⟨{ id := 1, price := 99, quantity := 5, side := Side.BUY },
      Or.inl ⟨(99, [{ id := 1, price := 99, quantity := 5, side := Side.BUY }]),
        by decide, by decide⟩, rfl⟩,
    by decide, by decide, by decide⟩

/-- C9, amended (modify replaces the quantity in place).  For every book in
which no price level has an empty queue, every id that rests in the book and
every new quantity > 0: if the id rests in the buy ladder, the buy ladder
after `modify_order_by_id` is the old one with the quantity of the first
order with that id replaced (same levels, same queues, same position, same id,
price and side) and the sell ladder is unchanged; otherwise the buy ladder is
unchanged and the sell ladder is the old one with the quantity of the first
order with that id replaced. -/
theorem modify_order_by_id_in_place (b : Orderbook) (i q : Nat)
    (hbuy : ∀ lv ∈ b.buyOrders, lv.2 ≠ []) (hsell : ∀ lv ∈ b.sellOrders, lv.2 ≠ [])
    (hq : 0 < q) (hrests : ∃ x, b.Rests x ∧ x.id = i) :
    (¬ OrderMap.Fresh b.buyOrders i →
      ModifiedInPlace i q b.buyOrders (modify_order_by_id b i q).buyOrders ∧
      (modify_order_by_id b i q).sellOrders = b.sellOrders) ∧
    (OrderMap.Fresh b.buyOrders i →
      (modify_order_by_id b i q).buyOrders = b.buyOrders ∧
      ModifiedInPlace i q b.sellOrders (modify_order_by_id b i q).sellOrders) := by
  have hq0 : q ≠ 0 := by omega
  unfold modify_order_by_id
  constructor
  · intro hnf
    obtain ⟨hfound, hmod⟩ := modify_order_in_map_present i q b.buyOrders hq0 hnf hbuy
    simp only [hfound, if_true]
    exact ⟨hmod, trivial⟩
  · intro hf
    have hnfs : ¬ OrderMap.Fresh b.sellOrders i := by
      intro hfs
      obtain ⟨x, hx | hx, hid⟩ := hrests
      · obtain ⟨lv, hlv, hxl⟩ := hx
        exact hf lv hlv x hxl hid
      · obtain ⟨lv, hlv, hxl⟩ := hx
        exact hfs lv hlv x hxl hid
    rw [modify_order_in_map_absent i q b.buyOrders hf hbuy]
    simp only [Bool.false_eq_true, if_false]
    exact ⟨trivial, (modify_order_in_map_present i q b.sellOrders hq0 hnfs hsell).2⟩

/-- Witness of C9 amended: Test 16 of tests.cpp (order 54, first of two sells
at 100, modified from 5 to 3). -/
theorem modify_order_by_id_in_place_witness :
    (∀ lv ∈ bookTest16.buyOrders, lv.2 ≠ []) ∧ (∀ lv ∈ bookTest16.sellOrders, lv.2 ≠ []) ∧
    0 < 3 ∧ (∃ x, bookTest16.Rests x ∧ x.id = 54) ∧
    ((¬ OrderMap.Fresh bookTest16.buyOrders 54 →
      ModifiedInPlace 54 3 bookTest16.buyOrders (modify_order_by_id bookTest16 54 3).buyOrders ∧
      (modify_order_by_id bookTest16 54 3).sellOrders = bookTest16.sellOrders) ∧
    (OrderMap.Fresh bookTest16.buyOrders 54 →
      (modify_order_by_id bookTest16 54 3).buyOrders = bookTest16.buyOrders ∧
      ModifiedInPlace 54 3 bookTest16.sellOrders
        (modify_order_by_id bookTest16 54 3).sellOrders)) :=
  ⟨by decide, by decide, by decide,
    ⟨{ id := 54, price := 100, quantity := 5, side := Side.SELL },
      Or.inr ⟨(100, [{ id := 54, price := 100, quantity := 5, side := Side.SELL },
                     { id := 55, price := 100, quantity := 5, side := Side.SELL }]),
        by decide, by decide⟩, rfl⟩,
    modify_order_by_id_in_place bookTest16 54 3 (by decide) (by decide) (by decide)
      ⟨{ id := 54, price := 100, quantity := 5, side := Side.SELL },
        Or.inr ⟨(100, [{ id := 54, price := 100, quantity := 5, side := Side.SELL },
                       { id := 55, price := 100, quantity := 5, side := Side.SELL }]),
          by decide, by decide⟩, rfl⟩⟩

/-- C10 at the failing input (Test 18 of tests.cpp): order 60 rests in the
ladder, `modify_order_in_map` with new quantity 0 removes it and its level,
and the result it returns is `false`. -/
theorem modify_order_in_map_cancel_not_found :
    OrderMap.Rests ladderTest18 { id := 60, price := 100, quantity := 10, side := Side.BUY } ∧
    modify_order_in_map 60 0 ladderTest18 = (false, []) :=
  ⟨⟨(100, [{ id := 60, price := 100, quantity := 10, side := Side.BUY }]),
      by decide, by decide⟩, by decide⟩

/-- C11 (cancel removes exactly the order).  For every book with pairwise
distinct order ids and no price level with an empty queue, and every id that
rests in the book: after `modify_order_by_id` with new quantity 0 the id no
longer exists; the ladder in which the order rested is the old ladder without
that order (the other orders of its level with the same fields in the same
relative order, every other level as before, the level itself erased exactly
when the order was the only one in it), and the other ladder is unchanged. -/
theorem cancel_removes_exactly (b : Orderbook) (i : Nat) (hdist : b.DistinctIds)
    (hbuy : ∀ lv ∈ b.buyOrders, lv.2 ≠ []) (hsell : ∀ lv ∈ b.sellOrders, lv.2 ≠ [])
    (hrests : ∃ x, b.Rests x ∧ x.id = i) :
    order_exists (modify_order_by_id b i 0) i = false ∧
    (¬ OrderMap.Fresh b.buyOrders i →
      CancelledIn i b.buyOrders (modify_order_by_id b i 0).buyOrders ∧
      (modify_order_by_id b i 0).sellOrders = b.sellOrders) ∧
    (OrderMap.Fresh b.buyOrders i →
      (modify_order_by_id b i 0).buyOrders = b.buyOrders ∧
      CancelledIn i b.sellOrders (modify_order_by_id b i 0).sellOrders) := by
  rw [modify_order_by_id_cancel]
  refine ⟨?_, ?_, ?_⟩
  · unfold order_exists
    simp only []
    rw [(lookup_order_in_map_eq_none i _).mpr (modify_order_in_map_cancel_fresh i _),
      (lookup_order_in_map_eq_none i _).mpr (modify_order_in_map_cancel_fresh i _)]
    rfl
  · intro hnf
    have hex : ∃ lv ∈ b.buyOrders, ∃ x ∈ lv.2, x.id = i := by
      by_contra hno
      exact hnf (fun lv hlv x hx hid => hno ⟨lv, hlv, x, hx, hid⟩)
    obtain ⟨⟨p, l⟩, hlv, x, hx, hid⟩ := hex
    obtain ⟨pre, post, hm⟩ := List.append_of_mem hlv
    obtain ⟨xs, ys, hl⟩ := List.append_of_mem hx
    simp only [] at hl
    subst hl
    unfold Orderbook.DistinctIds at hdist
    rw [hm] at hdist hbuy
    have hd : (([] ++ allOrders (pre ++ (p, xs ++ x :: ys) :: post) ++
        allOrders b.sellOrders).map (fun (o : Order) => o.id)).Nodup := by simpa using hdist
    obtain ⟨-, hpre, hxs, hys, hpost, hback⟩ := unique_of_nodup _ _ _ _ _ _ _ _ hd
    rw [hid] at hpre hxs hys hpost hback
    have hfs : OrderMap.Fresh b.sellOrders i := (fresh_iff_allOrders _ _).mpr hback
    simp only []
    rw [modify_order_in_map_absent i 0 b.sellOrders hfs hsell, hm]
    refine ⟨⟨pre, p, xs, x, ys, post, rfl, hid, ?_⟩, rfl⟩
    exact modify_order_in_map_cancel_unique i pre post p xs ys x hid hpre hxs hys hpost hbuy
  · intro hf
    have hex : ∃ lv ∈ b.sellOrders, ∃ x ∈ lv.2, x.id = i := by
      obtain ⟨x, hx | hx, hid⟩ := hrests
      · obtain ⟨lv, hlv, hxl⟩ := hx
        exact absurd hid (hf lv hlv x hxl)
      · obtain ⟨lv, hlv, hxl⟩ := hx
        exact ⟨lv, hlv, x, hxl, hid⟩
    obtain ⟨⟨p, l⟩, hlv, x, hx, hid⟩ := hex
    obtain ⟨pre, post, hm⟩ := List.append_of_mem hlv
    obtain ⟨xs, ys, hl⟩ := List.append_of_mem hx
    simp only [] at hl
    subst hl
    unfold Orderbook.DistinctIds at hdist
    rw [hm] at hdist hsell
    have hd : ((allOrders b.buyOrders ++ allOrders (pre ++ (p, xs ++ x :: ys) :: post) ++
        []).map (fun (o : Order) => o.id)).Nodup := by simpa using hdist
    obtain ⟨-, hpre, hxs, hys, hpost, -⟩ := unique_of_nodup _ _ _ _ _ _ _ _ hd
    rw [hid] at hpre hxs hys hpost
    simp only []
    rw [modify_order_in_map_absent i 0 b.buyOrders hf hbuy, hm]
    refine ⟨rfl, ⟨pre, p, xs, x, ys, post, rfl, hid, ?_⟩⟩
    exact modify_order_in_map_cancel_unique i pre post p xs ys x hid hpre hxs hys hpost hsell

/-- Witness of C11: Test 27 of tests.cpp (order 400, first of two sells at
100, cancelled). -/
theorem cancel_removes_exactly_witness :
    bookTest27a.DistinctIds ∧
    (∀ lv ∈ bookTest27a.buyOrders, lv.2 ≠ []) ∧ (∀ lv ∈ bookTest27a.sellOrders, lv.2 ≠ []) ∧
    (∃ x, bookTest27a.Rests x ∧ x.id = 400) ∧
    (order_exists (modify_order_by_id bookTest27a 400 0) 400 = false ∧
    (¬ OrderMap.Fresh bookTest27a.buyOrders 400 →
      CancelledIn 400 bookTest27a.buyOrders (modify_order_by_id bookTest27a 400 0).buyOrders ∧
      (modify_order_by_id bookTest27a 400 0).sellOrders = bookTest27a.sellOrders) ∧
    (OrderMap.Fresh bookTest27a.buyOrders 400 →
      (modify_order_by_id bookTest27a 400 0).buyOrders = bookTest27a.buyOrders ∧
      CancelledIn 400 bookTest27a.sellOrders
        (modify_order_by_id bookTest27a 400 0).sellOrders)) :=
  ⟨by decide, by decide, by decide,
    ⟨{ id := 400, price := 100, quantity := 30, side := Side.SELL },
      Or.inr ⟨(100, [{ id := 400, price := 100, quantity := 30, side := Side.SELL },
                     { id := 401, price := 100, quantity := 20, side := Side.SELL }]),
        by decide, by decide⟩, rfl⟩,
    cancel_removes_exactly bookTest27a 400 (by decide) (by decide) (by decide)
      ⟨{ id := 400, price := 100, quantity := 30, side := Side.SELL },
        Or.inr ⟨(100, [{ id := 400, price := 100, quantity := 30, side := Side.SELL },
                       { id := 401, price := 100, quantity := 20, side := Side.SELL }]),
          by decide, by decide⟩, rfl⟩⟩

/-- C12 (cancel idempotence).  For every book, id and quantity `q`: after
`modify_order_by_id` with new quantity 0, a second modify of the same id with
`q` finds nothing on the buy ladder and nothing on the sell ladder, and
leaves the book exactly as the first call left it. -/
theorem cancel_idempotent (b : Orderbook) (i q : Nat) :
    (modify_order_in_map i q (modify_order_by_id b i 0).buyOrders).1 = false ∧
    (modify_order_in_map i q (modify_order_by_id b i 0).sellOrders).1 = false ∧
    modify_order_by_id (modify_order_by_id b i 0) i q = modify_order_by_id b i 0 := by
  rw [modify_order_by_id_cancel]
  have hb := modify_order_in_map_absent i q (modify_order_in_map i 0 b.buyOrders).2
    (modify_order_in_map_cancel_fresh i _) (modify_order_in_map_cancel_nonempty i _)
  have hs := modify_order_in_map_absent i q (modify_order_in_map i 0 b.sellOrders).2
    (modify_order_in_map_cancel_fresh i _) (modify_order_in_map_cancel_nonempty i _)
  refine ⟨?_, ?_, ?_⟩
  · simp only []
    rw [hb]
  · simp only []
    rw [hs]
  · unfold modify_order_by_id
    simp only []
    rw [hb, hs]
    simp

/-- C13 (modify of a non-existent id is a no-op).  For every book in which no
price level has an empty queue, every id that rests in neither ladder and
every new quantity: `modify_order_by_id` returns the book unchanged (the
function is total, it has no failure path), having found nothing on either
ladder. -/
theorem modify_nonexistent_noop (b : Orderbook) (i q : Nat)
    (hbuy : ∀ lv ∈ b.buyOrders, lv.2 ≠ []) (hsell : ∀ lv ∈ b.sellOrders, lv.2 ≠ [])
    (hfb : OrderMap.Fresh b.buyOrders i) (hfs : OrderMap.Fresh b.sellOrders i) :
    modify_order_by_id b i q = b ∧
    (modify_order_in_map i q b.buyOrders).1 = false ∧
    (modify_order_in_map i q b.sellOrders).1 = false := by
  have hb := modify_order_in_map_absent i q b.buyOrders hfb hbuy
  have hs := modify_order_in_map_absent i q b.sellOrders hfs hsell
  refine ⟨?_, by rw [hb], by rw [hs]⟩
  unfold modify_order_by_id
  simp only []
  rw [hb, hs]
  simp

/-- Witness of C13: Test 6 of tests.cpp (id 999 cancelled while only order 25
rests). -/
theorem modify_nonexistent_noop_witness :
    (∀ lv ∈ bookTest6.buyOrders, lv.2 ≠ []) ∧ (∀ lv ∈ bookTest6.sellOrders, lv.2 ≠ []) ∧
    OrderMap.Fresh bookTest6.buyOrders 999 ∧ OrderMap.Fresh bookTest6.sellOrders 999 ∧
    (modify_order_by_id bookTest6 999 0 = bookTest6 ∧
    (modify_order_in_map 999 0 bookTest6.buyOrders).1 = false ∧
    (modify_order_in_map 999 0 bookTest6.sellOrders).1 = false) :=
  ⟨by decide, by decide, by decide, by decide,
    modify_nonexistent_noop bookTest6 999 0 (by decide) (by decide) (by decide) (by decide)⟩

/-- C14 (volume at a level).  For every book (key-sorted ladders), side and
price: `get_volume_at_level` returns the sum of the quantities of the orders
of the queue stored at that price on that side's ladder, accumulated in 32
bits (the sum modulo `2 ^ 32`, hence the sum itself when it is below
`2 ^ 32`, in particular when the queue holds at most 65537 orders with
16-bit quantities), and 0 when that ladder has no level at that price; no
other level and no order of the other ladder enters the result. -/
theorem volume_at_level (b : Orderbook) (side : Side) (price : Nat) (hwf : b.WellFormed) :
    (∀ l, (price, l) ∈ ownSide side b →
      get_volume_at_level b side price = queueQuantity l % UINT32_BOUND) ∧
    (∀ l, (price, l) ∈ ownSide side b → queueQuantity l < UINT32_BOUND →
      get_volume_at_level b side price = queueQuantity l) ∧
    (∀ l, (price, l) ∈ ownSide side b → l.length ≤ 65537 →
      (∀ x ∈ l, x.quantity < UINT16_BOUND) →
      get_volume_at_level b side price = queueQuantity l) ∧
    (price ∉ (ownSide side b).map Prod.fst → get_volume_at_level b side price = 0) := by
  have hfind : ∀ l, (price, l) ∈ ownSide side b → queueAt price (ownSide side b) = l := by
    intro l hl
    unfold queueAt
    rw [map_find_of_mem (ownComparator side) (ownComparator_irrefl side) _
      (own_sorted b side hwf) price l hl]
    rfl
  have h1 : ∀ l, (price, l) ∈ ownSide side b →
      get_volume_at_level b side price = queueQuantity l % UINT32_BOUND := by
    intro l hl
    rw [get_volume_at_level_eq, hfind l hl]
  have h2 : ∀ l, (price, l) ∈ ownSide side b → queueQuantity l < UINT32_BOUND →
      get_volume_at_level b side price = queueQuantity l := by
    intro l hl hlt
    rw [h1 l hl, Nat.mod_eq_of_lt hlt]
  refine ⟨h1, h2, ?_, ?_⟩
  · intro l hl hlen hq
    apply h2 l hl
    have hle := queueQuantity_le l hq
    have hmul : l.length * (UINT16_BOUND - 1) ≤ 65537 * (UINT16_BOUND - 1) :=
      Nat.mul_le_mul_right _ hlen
    unfold UINT16_BOUND at hle hmul
    unfold UINT32_BOUND
    omega
  · intro hno
    rw [get_volume_at_level_eq]
    unfold queueAt
    rw [map_find_eq_none price _ hno]
    rfl

/-- Witness of C14: Test 21 of tests.cpp (two sells of 5 and 7 resting at
100). -/
theorem volume_at_level_witness :
    bookTest21.WellFormed ∧
    ((∀ l, (100, l) ∈ ownSide Side.SELL bookTest21 →
      get_volume_at_level bookTest21 Side.SELL 100 = queueQuantity l % UINT32_BOUND) ∧
    (∀ l, (100, l) ∈ ownSide Side.SELL bookTest21 → queueQuantity l < UINT32_BOUND →
      get_volume_at_level bookTest21 Side.SELL 100 = queueQuantity l) ∧
    (∀ l, (100, l) ∈ ownSide Side.SELL bookTest21 → l.length ≤ 65537 →
      (∀ x ∈ l, x.quantity < UINT16_BOUND) →
      get_volume_at_level bookTest21 Side.SELL 100 = queueQuantity l) ∧
    (100 ∉ (ownSide Side.SELL bookTest21).map Prod.fst →
      get_volume_at_level bookTest21 Side.SELL 100 = 0)) :=
  ⟨by decide, volume_at_level bookTest21 Side.SELL 100 (by decide)⟩

/-- C15 (no cross, no fill).  For every book (key-sorted ladders) and
incoming order with quantity > 0 such that no opposite-side level satisfies
the crossing condition: `match_order` returns 0, the opposite ladder is
unchanged, and the own ladder, still key-sorted, has at the limit price the
old queue at that price (empty if there was no such level) followed by the
incoming order with its full quantity, every other price being as before. -/
theorem no_cross_no_fill (b : Orderbook) (o : Order) (hwf : b.WellFormed)
    (hq : 0 < o.quantity)
    (hno : ∀ lv ∈ oppositeSide o.side b, crosses o.side lv.1 o.price = false) :
    (match_order b o).1 = 0 ∧
    oppositeSide o.side (match_order b o).2 = oppositeSide o.side b ∧
    OrderMap.Sorted (ownComparator o.side) (ownSide o.side (match_order b o).2) ∧
    (∀ p, map_find p (ownSide o.side (match_order b o).2) =
      if p = o.price then some (queueAt o.price (ownSide o.side b) ++ [o])
      else map_find p (ownSide o.side b)) := by
  obtain ⟨hcnt, hopp, hown⟩ := match_order_eq b o
  have hw : process_orders o (oppositeSide o.side b) (crosses o.side) =
      (o, 0, oppositeSide o.side b) :=
    process_orders_levels_no_cross (crosses o.side) o 0 _ hno
  rw [hw] at hcnt hopp hown
  simp only [] at hcnt hopp hown
  rw [if_pos hq] at hown
  have hs := own_sorted b o.side hwf
  refine ⟨hcnt, hopp, ?_, ?_⟩
  · rw [hown]
    exact push_back_at_sorted _ _ _ _ hs
  · intro p
    rw [hown]
    exact push_back_at_find _ _ _ _ hs p

/-- Witness of C15: Test 9 of tests.cpp (BUY 5 @ 100 arriving when only SELL 5
@ 105 rests). -/
theorem no_cross_no_fill_witness :
    bookTest9.WellFormed ∧ 0 < orderTest9.quantity ∧
    (∀ lv ∈ oppositeSide orderTest9.side bookTest9,
      crosses orderTest9.side lv.1 orderTest9.price = false) ∧
    ((match_order bookTest9 orderTest9).1 = 0 ∧
    oppositeSide orderTest9.side (match_order bookTest9 orderTest9).2 =
      oppositeSide orderTest9.side bookTest9 ∧
    OrderMap.Sorted (ownComparator orderTest9.side)
      (ownSide orderTest9.side (match_order bookTest9 orderTest9).2) ∧
    (∀ p, map_find p (ownSide orderTest9.side (match_order bookTest9 orderTest9).2) =
      if p = orderTest9.price then
        some (queueAt orderTest9.price (ownSide orderTest9.side bookTest9) ++ [orderTest9])
      else map_find p (ownSide orderTest9.side bookTest9))) :=
  ⟨by decide, by decide, by decide,
    no_cross_no_fill bookTest9 orderTest9 (by decide) (by decide) (by decide)⟩

/-- C16 at the failing input: order 1 rests on the buy side and an order with
the same id rests on the sell side (a book reached by two `match_order`
calls); `modify_order_by_id` with new quantity 0 removes both, so the sell
ladder is not left unchanged. -/
theorem modify_cancel_no_short_circuit :
    runOps opsSameId = bookSameId ∧
    ¬ OrderMap.Fresh bookSameId.buyOrders 1 ∧
    modify_order_by_id bookSameId 1 0 = { buyOrders := [], sellOrders := [] } ∧
    (modify_order_by_id bookSameId 1 0).sellOrders ≠ bookSameId.sellOrders :=
  ⟨by decide, by decide, by decide, by decide⟩

/-- C18 (zero-quantity incoming order is a no-op).  For every book and every
incoming order with quantity 0, of any side, price and id: `match_order`
returns 0 and the book, both ladders, is unchanged. -/
theorem zero_quantity_noop (b : Orderbook) (o : Order) (hq : o.quantity = 0) :
    match_order b o = (0, b) := by
  unfold match_order process_orders
  cases o.side with
  | BUY =>
    simp only []
    rw [process_orders_levels_zero _ _ _ _ hq]
    simp [hq]
  | SELL =>
    simp only []
    rw [process_orders_levels_zero _ _ _ _ hq]
    simp [hq]

/-- Witness of C18: a BUY of quantity 0 at 100 against the book of Test 5,
whose sells at 95 and 100 would cross. -/
theorem zero_quantity_noop_witness :
    orderZero.quantity = 0 ∧ match_order bookTest5 orderZero = (0, bookTest5) :=
  ⟨by decide, zero_quantity_noop bookTest5 orderZero (by decide)⟩

/-- C19 (the book is never crossed).  In every book reached from the empty
book by a finite sequence of `match_order` and `modify_order_by_id` calls,
every price of the buy ladder is strictly less than every price of the sell
ladder; in particular the best bid (first buy level) is below the best ask
(first sell level) whenever both sides are non-empty. -/
theorem never_crossed (ops : List Op) :
    (∀ lvb ∈ (runOps ops).buyOrders, ∀ lvs ∈ (runOps ops).sellOrders, lvb.1 < lvs.1) ∧
    (∀ lb ls, (runOps ops).buyOrders.head? = some lb →
      (runOps ops).sellOrders.head? = some ls → lb.1 < ls.1) := by
  have h : (runOps ops).Uncrossed :=
    foldl_applyOp_uncrossed ops create_orderbook
      ⟨by simp [create_orderbook, OrderMap.Sorted], by simp [create_orderbook, OrderMap.Sorted]⟩
      (by simp [Orderbook.Uncrossed, create_orderbook])
  refine ⟨h, ?_⟩
  intro lb ls hb hs
  exact h lb (List.mem_of_mem_head? hb) ls (List.mem_of_mem_head? hs)

/-- C17 (match preserves the order of what it does not consume).  For every
book (key-sorted ladders) and incoming order, after `match_order`: the
opposite ladder is still sorted best price first; its orders are, in
priority order, the last orders of the old ladder with quantities not
larger; each of its levels is a level of the old ladder whose queue is the
tail of the old queue; every opposite-side level whose price does not satisfy
the crossing condition is exactly as before; and on the own side the ladder
is still key-sorted and every old level is still there with its old queue as
the front of its queue, so every order that rested there keeps its fields and
its position. -/
theorem match_order_preserves_order (b : Orderbook) (o : Order) (hwf : b.WellFormed) :
    OrderMap.Sorted (strictlyBetter o.side) (oppositeSide o.side (match_order b o).2) ∧
    List.Forall₂ sameOrderReduced
      ((allOrders (oppositeSide o.side b)).drop
        ((allOrders (oppositeSide o.side b)).length -
          (allOrders (oppositeSide o.side (match_order b o).2)).length))
      (allOrders (oppositeSide o.side (match_order b o).2)) ∧
    (∀ lv ∈ oppositeSide o.side (match_order b o).2, ∃ l,
      (lv.1, l) ∈ oppositeSide o.side b ∧
      List.Forall₂ sameOrderReduced (l.drop (l.length - lv.2.length)) lv.2) ∧
    (∀ lv ∈ oppositeSide o.side b, crosses o.side lv.1 o.price = false →
      map_find lv.1 (oppositeSide o.side (match_order b o).2) = some lv.2) ∧
    OrderMap.Sorted (ownComparator o.side) (ownSide o.side (match_order b o).2) ∧
    (∀ lv ∈ ownSide o.side b, ∃ l,
      map_find lv.1 (ownSide o.side (match_order b o).2) = some l ∧ lv.2 <+: l) := by
  obtain ⟨-, hopp, hown⟩ := match_order_eq b o
  have hso := opposite_sorted b o.side hwf
  have hsw := own_sorted b o.side hwf
  rw [hopp, hown]
  unfold process_orders
  refine ⟨process_orders_levels_sorted _ _ _ _ _ hso, ?_,
    process_orders_levels_residue _ _ _ _, ?_, ?_, ?_⟩
  · obtain ⟨gone, kept, hl, hf, -, -⟩ := process_orders_levels_partial (crosses o.side) o 0
      (oppositeSide o.side b)
    rw [(residue_drop _ _ gone kept hl hf).2]
    exact hf
  · intro lv hlv hc
    exact process_orders_levels_untouched (strictlyBetter o.side) (crosses o.side)
      (strictlyBetter_irrefl o.side) o 0 _ hso lv.1 lv.2 hlv hc
  · split
    · exact push_back_at_sorted _ _ _ _ hsw
    · exact hsw
  · split
    · exact push_back_at_prefix _ _ _ _ hsw
    · intro lv hlv
      exact ⟨lv.2, map_find_of_mem (ownComparator o.side) (ownComparator_irrefl o.side) _ hsw
        lv.1 lv.2 hlv, List.prefix_refl _⟩

/-- Witness of C17: the last call of Test 28 of tests.cpp (BUY 15 @ 102
against SELL 10 @ 101 and SELL 20 @ 102, with buys resting at 100 and 99). -/
theorem match_order_preserves_order_witness :
    bookTest28.WellFormed ∧
    (OrderMap.Sorted (strictlyBetter orderTest28.side)
      (oppositeSide orderTest28.side (match_order bookTest28 orderTest28).2) ∧
    List.Forall₂ sameOrderReduced
      ((allOrders (oppositeSide orderTest28.side bookTest28)).drop
        ((allOrders (oppositeSide orderTest28.side bookTest28)).length -
          (allOrders (oppositeSide orderTest28.side
            (match_order bookTest28 orderTest28).2)).length))
      (allOrders (oppositeSide orderTest28.side (match_order bookTest28 orderTest28).2)) ∧
    (∀ lv ∈ oppositeSide orderTest28.side (match_order bookTest28 orderTest28).2, ∃ l,
      (lv.1, l) ∈ oppositeSide orderTest28.side bookTest28 ∧
      List.Forall₂ sameOrderReduced (l.drop (l.length - lv.2.length)) lv.2) ∧
    (∀ lv ∈ oppositeSide orderTest28.side bookTest28,
      crosses orderTest28.side lv.1 orderTest28.price = false →
      map_find lv.1 (oppositeSide orderTest28.side (match_order bookTest28 orderTest28).2) =
        some lv.2) ∧
    OrderMap.Sorted (ownComparator orderTest28.side)
      (ownSide orderTest28.side (match_order bookTest28 orderTest28).2) ∧
    (∀ lv ∈ ownSide orderTest28.side bookTest28, ∃ l,
      map_find lv.1 (ownSide orderTest28.side (match_order bookTest28 orderTest28).2) =
        some l ∧ lv.2 <+: l)) :=
  ⟨by decide, match_order_preserves_order bookTest28 orderTest28 (by decide)⟩

/-- C20 (at most one partial fill per match).  For every book and incoming
order (the resting quantities need not even be positive), the orders left on
the opposite ladder being aligned with the last orders of the old ladder: at
most one of them has a quantity smaller than before; the value returned by
`match_order` is at most the number of removed orders plus one; and if a
survivor has a smaller quantity, the incoming order has no quantity left
after the walk and the own ladder is unchanged, so it does not rest. -/
theorem match_order_one_partial_fill (b : Orderbook) (o : Order) :
    List.Forall₂ sameOrderReduced
      ((allOrders (oppositeSide o.side b)).drop
        ((allOrders (oppositeSide o.side b)).length -
          (allOrders (oppositeSide o.side (match_order b o).2)).length))
      (allOrders (oppositeSide o.side (match_order b o).2)) ∧
    countReduced
      ((allOrders (oppositeSide o.side b)).drop
        ((allOrders (oppositeSide o.side b)).length -
          (allOrders (oppositeSide o.side (match_order b o).2)).length))
      (allOrders (oppositeSide o.side (match_order b o).2)) ≤ 1 ∧
    (match_order b o).1 ≤
      ((allOrders (oppositeSide o.side b)).length -
        (allOrders (oppositeSide o.side (match_order b o).2)).length) + 1 ∧
    (0 < countReduced
        ((allOrders (oppositeSide o.side b)).drop
          ((allOrders (oppositeSide o.side b)).length -
            (allOrders (oppositeSide o.side (match_order b o).2)).length))
        (allOrders (oppositeSide o.side (match_order b o).2)) →
      (process_orders o (oppositeSide o.side b) (crosses o.side)).1.quantity = 0 ∧
      ownSide o.side (match_order b o).2 = ownSide o.side b) := by
  obtain ⟨hcnt, hopp, hown⟩ := match_order_eq b o
  rw [hcnt, hopp, hown]
  unfold process_orders
  obtain ⟨gone, kept, hl, hf, hle, hz⟩ := process_orders_levels_partial (crosses o.side) o 0
    (oppositeSide o.side b)
  obtain ⟨g2, k2, hl2, hf2, hc2, -⟩ := process_orders_levels_count (crosses o.side) o 0
    (oppositeSide o.side b) (by unfold UINT32_BOUND; omega)
  obtain ⟨h1, h2⟩ := residue_drop _ _ gone kept hl hf
  obtain ⟨h3, h4⟩ := residue_drop _ _ g2 k2 hl2 hf2
  have hk : k2 = kept := by rw [← h4, h2]
  subst hk
  rw [h2, h1]
  refine ⟨hf, hle, ?_, ?_⟩
  · rw [hc2, Nat.zero_add]
    have := Nat.mod_le (g2.length +
      countReduced k2 (allOrders (process_orders_levels (crosses o.side) o 0
        (oppositeSide o.side b)).2.2)) UINT32_BOUND
    omega
  · intro hpos
    have hq := hz hpos
    refine ⟨hq, ?_⟩
    rw [if_neg (by omega)]

end OrderMatching
